import Mathlib

/-!
# TracesCleaner — verification of the watermark detector/cleaner engine

Shallow embedding of `src/js/watermark-detector.js`.  A JavaScript string is
modelled as a `List Nat` of its UTF-16 code units (`text[i]` /
`charCodeAt(i)` examine one code unit at a time, which is exactly how the
source iterates).  Each engine operation is translated into a total Lean
function over that representation.

The only platform primitive with non-trivial semantics that the source calls
is `String.prototype.normalize('NFC')`; it is modelled below by `nfc`, an
implementation of the Unicode canonical decompose/reorder/compose algorithm
over a finite fragment of the Unicode data tables (see the doc comment on
`nfc`).
-/

/-- Convert a Lean string literal to the UTF-16-code-unit model used here.
    (All literals passed to it in this file are ASCII, where scalar values
    and UTF-16 code units coincide.) -/
def lit (s : String) : List Nat := s.data.map Char.toNat

/-- Character categories used by the registry (`INVISIBLE_CHARS`), plus the
    synthesized `control` category used by `detect` for unnamed C0/C1
    controls. -/
inductive Cat where
  | formatting | zeroWidth | direction | separator | joiner | mathInvisible
  | bom | format | variation | annotationMark | filler | space | control
deriving DecidableEq

/-- Descriptor stored in the registry: `{ name, code, category }`. -/
structure CharInfo where
  name : String
  code : String
  category : Cat
deriving DecidableEq

set_option maxHeartbeats 2000000 in
/-- The invisible-character registry `INVISIBLE_CHARS`, transcribed entry by
    entry, in source order (JS object literals preserve insertion order,
    which matters for `detectWhitespaceAnomalies`' special-space scan). -/
def INVISIBLE_CHARS : List (Nat × CharInfo) := [
  (0x0009, ⟨"Tab", "U+0009", Cat.formatting⟩),
  (0x000A, ⟨"Line Feed", "U+000A", Cat.formatting⟩),
  (0x000C, ⟨"Form Feed", "U+000C", Cat.formatting⟩),
  (0x000D, ⟨"Carriage Return", "U+000D", Cat.formatting⟩),
  (0x200B, ⟨"Zero-Width Space", "U+200B", Cat.zeroWidth⟩),
  (0x200C, ⟨"Zero-Width Non-Joiner", "U+200C", Cat.zeroWidth⟩),
  (0x200D, ⟨"Zero-Width Joiner", "U+200D", Cat.zeroWidth⟩),
  (0x200E, ⟨"Left-to-Right Mark", "U+200E", Cat.direction⟩),
  (0x200F, ⟨"Right-to-Left Mark", "U+200F", Cat.direction⟩),
  (0x2028, ⟨"Line Separator", "U+2028", Cat.separator⟩),
  (0x2029, ⟨"Paragraph Separator", "U+2029", Cat.separator⟩),
  (0x202A, ⟨"Left-to-Right Embedding", "U+202A", Cat.direction⟩),
  (0x202B, ⟨"Right-to-Left Embedding", "U+202B", Cat.direction⟩),
  (0x202C, ⟨"Pop Directional Formatting", "U+202C", Cat.direction⟩),
  (0x202D, ⟨"Left-to-Right Override", "U+202D", Cat.direction⟩),
  (0x202E, ⟨"Right-to-Left Override", "U+202E", Cat.direction⟩),
  (0x2060, ⟨"Word Joiner", "U+2060", Cat.joiner⟩),
  (0x2061, ⟨"Function Application", "U+2061", Cat.mathInvisible⟩),
  (0x2062, ⟨"Invisible Times", "U+2062", Cat.mathInvisible⟩),
  (0x2063, ⟨"Invisible Separator", "U+2063", Cat.mathInvisible⟩),
  (0x2064, ⟨"Invisible Plus", "U+2064", Cat.mathInvisible⟩),
  (0xFEFF, ⟨"Byte Order Mark (BOM)", "U+FEFF", Cat.bom⟩),
  (0x00AD, ⟨"Soft Hyphen", "U+00AD", Cat.format⟩),
  (0xFE00, ⟨"Variation Selector-1", "U+FE00", Cat.variation⟩),
  (0xFE01, ⟨"Variation Selector-2", "U+FE01", Cat.variation⟩),
  (0xFE02, ⟨"Variation Selector-3", "U+FE02", Cat.variation⟩),
  (0xFE03, ⟨"Variation Selector-4", "U+FE03", Cat.variation⟩),
  (0xFE04, ⟨"Variation Selector-5", "U+FE04", Cat.variation⟩),
  (0xFE05, ⟨"Variation Selector-6", "U+FE05", Cat.variation⟩),
  (0xFE06, ⟨"Variation Selector-7", "U+FE06", Cat.variation⟩),
  (0xFE07, ⟨"Variation Selector-8", "U+FE07", Cat.variation⟩),
  (0xFE08, ⟨"Variation Selector-9", "U+FE08", Cat.variation⟩),
  (0xFE09, ⟨"Variation Selector-10", "U+FE09", Cat.variation⟩),
  (0xFE0A, ⟨"Variation Selector-11", "U+FE0A", Cat.variation⟩),
  (0xFE0B, ⟨"Variation Selector-12", "U+FE0B", Cat.variation⟩),
  (0xFE0C, ⟨"Variation Selector-13", "U+FE0C", Cat.variation⟩),
  (0xFE0D, ⟨"Variation Selector-14", "U+FE0D", Cat.variation⟩),
  (0xFE0E, ⟨"Variation Selector-15", "U+FE0E", Cat.variation⟩),
  (0xFE0F, ⟨"Variation Selector-16", "U+FE0F", Cat.variation⟩),
  (0xFFF9, ⟨"Interlinear Annotation Anchor", "U+FFF9", Cat.annotationMark⟩),
  (0xFFFA, ⟨"Interlinear Annotation Separator", "U+FFFA", Cat.annotationMark⟩),
  (0xFFFB, ⟨"Interlinear Annotation Terminator", "U+FFFB", Cat.annotationMark⟩),
  (0x061C, ⟨"Arabic Letter Mark", "U+061C", Cat.direction⟩),
  (0x2066, ⟨"Left-to-Right Isolate", "U+2066", Cat.direction⟩),
  (0x2067, ⟨"Right-to-Left Isolate", "U+2067", Cat.direction⟩),
  (0x2068, ⟨"First Strong Isolate", "U+2068", Cat.direction⟩),
  (0x2069, ⟨"Pop Directional Isolate", "U+2069", Cat.direction⟩),
  (0x180E, ⟨"Mongolian Vowel Separator", "U+180E", Cat.format⟩),
  (0x115F, ⟨"Hangul Choseong Filler", "U+115F", Cat.filler⟩),
  (0x1160, ⟨"Hangul Jungseong Filler", "U+1160", Cat.filler⟩),
  (0x3164, ⟨"Hangul Filler", "U+3164", Cat.filler⟩),
  (0xFFA0, ⟨"Halfwidth Hangul Filler", "U+FFA0", Cat.filler⟩),
  (0xFFFC, ⟨"Object Replacement Character", "U+FFFC", Cat.format⟩),
  (0xFFFD, ⟨"Replacement Character", "U+FFFD", Cat.format⟩),
  (0x2011, ⟨"Non-Breaking Hyphen", "U+2011", Cat.format⟩),
  (0x200A, ⟨"Hair Space", "U+200A", Cat.space⟩),
  (0x2009, ⟨"Thin Space", "U+2009", Cat.space⟩),
  (0x2008, ⟨"Punctuation Space", "U+2008", Cat.space⟩),
  (0x2007, ⟨"Figure Space", "U+2007", Cat.space⟩),
  (0x2006, ⟨"Six-Per-Em Space", "U+2006", Cat.space⟩),
  (0x2005, ⟨"Four-Per-Em Space", "U+2005", Cat.space⟩),
  (0x2004, ⟨"Three-Per-Em Space", "U+2004", Cat.space⟩),
  (0x2003, ⟨"Em Space", "U+2003", Cat.space⟩),
  (0x2002, ⟨"En Space", "U+2002", Cat.space⟩),
  (0x2001, ⟨"Em Quad", "U+2001", Cat.space⟩),
  (0x2000, ⟨"En Quad", "U+2000", Cat.space⟩),
  (0x00A0, ⟨"Non-Breaking Space", "U+00A0", Cat.space⟩),
  (0x205F, ⟨"Medium Mathematical Space", "U+205F", Cat.space⟩),
  (0x3000, ⟨"Ideographic Space", "U+3000", Cat.space⟩)]

/-- Registry lookup `INVISIBLE_CHARS[ch]`, `null` becoming `none`.  This is
    also the public `getCharInfo` accessor. -/
def getCharInfo (u : Nat) : Option CharInfo :=
  (INVISIBLE_CHARS.find? (fun p => p.1 = u)).map (·.2)

/-- The generic C0/C1 control ranges tested by `detect` (and baked into
    `INVISIBLE_REGEX`): 0x00–0x08, 0x0B, 0x0E–0x1F, 0x7F, 0x80–0x9F. -/
def controlRange (u : Nat) : Bool :=
  u ≤ 8 || u = 0x0B || (0x0E ≤ u && u ≤ 0x1F) || u = 0x7F || (0x80 ≤ u && u ≤ 0x9F)

/-- The character class of `INVISIBLE_REGEX`: every registry character whose
    category is not `formatting` (the source builds `STRIPPABLE_CHARS` by
    filtering the registry) together with the generic control ranges. -/
def strippable (u : Nat) : Bool :=
  (match getCharInfo u with
   | some info => decide (info.category ≠ Cat.formatting)
   | none => false) || controlRange u

/-- Second code unit of a pair matched by `SUPPLEMENTARY_REGEX`
    (`[\uDB40][\uDC01-\uDC7F]|[\uDB40][\uDD00-\uDDEF]`): the low surrogates
    encoding Tag characters U+E0001–U+E007F and Variation Selectors
    Supplement U+E0100–U+E01EF. -/
def suppLow (l : Nat) : Bool :=
  (0xDC01 ≤ l && l ≤ 0xDC7F) || (0xDD00 ≤ l && l ≤ 0xDDEF)

/-- `result.replace(SUPPLEMENTARY_REGEX, '')`: a single left-to-right scan of
    the string removing each non-overlapping occurrence of `\uDB40` followed
    by a low surrogate in the Tag / Variation-Selector-Supplement ranges.
    As with the JavaScript global replace, the scan does not revisit the
    output, so a pair formed by a deletion is not itself removed. -/
def supp : List Nat → List Nat
  | [] => []
  | [u] => [u]
  | u :: l :: rest =>
    if u = 0xDB40 && suppLow l then supp rest
    else u :: supp (l :: rest)

/-- Canonical decomposition table fragment used by `nfc` (see there). -/
def nfcDecomp (u : Nat) : List Nat :=
  if u = 0xC9 then [0x45, 0x301]
  else if u = 0xC0 then [0x41, 0x300]
  else if u = 0x344 then [0x308, 0x301]
  else [u]

/-- Recursive canonical decomposition: on this fragment the table is closed
    (no decomposition output is itself decomposable), so one pass suffices. -/
def decompose (w : List Nat) : List Nat := w.flatMap nfcDecomp

/-- Canonical combining class fragment: the combining marks of the fragment
    (U+0300, U+0301, U+0308) have ccc 230; everything else is a starter. -/
def ccc (u : Nat) : Nat :=
  if u = 0x300 || u = 0x301 || u = 0x308 then 230 else 0

/-- Stable insertion into a ccc-sorted run (equal classes keep their order). -/
def insCC (x : Nat) : List Nat → List Nat
  | [] => [x]
  | y :: t => if ccc x ≤ ccc y then x :: y :: t else y :: insCC x t

/-- Stable sort of a run of non-starters by canonical combining class. -/
def sortCC : List Nat → List Nat
  | [] => []
  | x :: xs => insCC x (sortCC xs)

/-- Canonical ordering: stably sort every maximal run of non-starters by
    combining class.  (On this fragment all non-starters have ccc 230, so
    the pass is provably the identity — `reorder_eq_id` below — matching
    real NFC, where marks of equal class are never permuted.) -/
def reorder : List Nat → List Nat
  | [] => []
  | x :: xs =>
    if ccc x = 0 then x :: reorder xs
    else sortCC (x :: xs.takeWhile (fun u => ccc u ≠ 0)) ++
         reorder (xs.dropWhile (fun u => ccc u ≠ 0))
termination_by w => w.length
decreasing_by
  all_goals simp only [List.length_cons]
  all_goals first
    | omega
    | exact Nat.lt_succ_of_le ((List.dropWhile_sublist _).length_le)

/-- Primary composite table fragment used by `nfc`. -/
def composePair (x y : Nat) : Option Nat :=
  if x = 0x45 && y = 0x301 then some 0xC9
  else if x = 0x41 && y = 0x300 then some 0xC0
  else none

/-- Canonical composition.  Because every non-starter of the fragment has
    combining class 230, a mark can compose with a starter only when it
    immediately follows it (any intervening mark blocks it), so composition
    reduces to combining adjacent pairs left to right, the new character
    remaining available for further composition. -/
def comp : List Nat → List Nat
  | [] => []
  | [x] => [x]
  | x :: y :: t =>
    match composePair x y with
    | some z => comp (z :: t)
    | none => x :: comp (y :: t)
termination_by w => w.length
decreasing_by
  · simp
  · simp

/-- Modelled from the spec: step 4 of the Cleaner applies "canonical Unicode
    composition normalization (NFC)" via the platform built-in
    `String.prototype.normalize('NFC')`, which is not part of this
    repository's source.  `nfc` implements the Unicode NFC algorithm —
    canonical decomposition, canonical ordering, canonical composition —
    over a finite fragment of the Unicode data tables:

    * decompositions: U+00C9 → U+0045 U+0301, U+00C0 → U+0041 U+0300, and
      U+0344 → U+0308 U+0301 (a non-starter decomposition, hence excluded
      from recomposition, exactly as in real NFC);
    * primary composites: (U+0045, U+0301) → U+00C9, (U+0041, U+0300) → U+00C0;
    * combining classes: ccc(U+0300) = ccc(U+0301) = ccc(U+0308) = 230.

    Every code point outside the fragment is treated as a starter with no
    decomposition, i.e. it passes through unchanged — in particular lone
    surrogates pass through, as they do in the platform implementation. -/
def nfc (w : List Nat) : List Nat := comp (reorder (decompose w))

/-- The homoglyph map `HOMOGLYPHS`, transcribed in source order. -/
def HOMOGLYPHS : List (Nat × Nat) := [
  (0x0410, 0x41), (0x0412, 0x42), (0x0421, 0x43), (0x0415, 0x45),
  (0x041D, 0x48), (0x041A, 0x4B), (0x041C, 0x4D), (0x041E, 0x4F),
  (0x0420, 0x50), (0x0422, 0x54), (0x0425, 0x58),
  (0x0430, 0x61), (0x0435, 0x65), (0x043E, 0x6F), (0x0440, 0x70),
  (0x0441, 0x63), (0x0443, 0x79), (0x0445, 0x78), (0x0456, 0x69),
  (0x0458, 0x6A), (0x04BB, 0x68), (0x0501, 0x64),
  (0x0391, 0x41), (0x0392, 0x42), (0x0395, 0x45), (0x0396, 0x5A),
  (0x0397, 0x48), (0x0399, 0x49), (0x039A, 0x4B), (0x039C, 0x4D),
  (0x039D, 0x4E), (0x039F, 0x4F), (0x03A1, 0x50), (0x03A4, 0x54),
  (0x03A5, 0x59), (0x03A7, 0x58), (0x03BF, 0x6F),
  (0xFF21, 0x41), (0xFF22, 0x42), (0xFF23, 0x43), (0xFF24, 0x44),
  (0xFF25, 0x45), (0xFF26, 0x46), (0xFF27, 0x47), (0xFF28, 0x48),
  (0xFF29, 0x49), (0xFF2A, 0x4A), (0xFF2B, 0x4B), (0xFF2C, 0x4C),
  (0xFF2D, 0x4D), (0xFF2E, 0x4E), (0xFF2F, 0x4F), (0xFF30, 0x50),
  (0xFF31, 0x51), (0xFF32, 0x52), (0xFF33, 0x53), (0xFF34, 0x54),
  (0xFF35, 0x55), (0xFF36, 0x56), (0xFF37, 0x57), (0xFF38, 0x58),
  (0xFF39, 0x59), (0xFF3A, 0x5A),
  (0xFF41, 0x61), (0xFF42, 0x62), (0xFF43, 0x63), (0xFF44, 0x64),
  (0xFF45, 0x65), (0xFF46, 0x66), (0xFF47, 0x67), (0xFF48, 0x68),
  (0xFF49, 0x69), (0xFF4A, 0x6A), (0xFF4B, 0x6B), (0xFF4C, 0x6C),
  (0xFF4D, 0x6D), (0xFF4E, 0x6E), (0xFF4F, 0x6F), (0xFF50, 0x70),
  (0xFF51, 0x71), (0xFF52, 0x72), (0xFF53, 0x73), (0xFF54, 0x74),
  (0xFF55, 0x75), (0xFF56, 0x76), (0xFF57, 0x77), (0xFF58, 0x78),
  (0xFF59, 0x79), (0xFF5A, 0x7A),
  (0x2010, 0x2D), (0x2011, 0x2D), (0x2012, 0x2D), (0x2013, 0x2D),
  (0x2014, 0x2D), (0x2018, 0x27), (0x2019, 0x27), (0x201C, 0x22),
  (0x201D, 0x22), (0x2032, 0x27), (0x2033, 0x22), (0x00A0, 0x20),
  (0x2000, 0x20), (0x2001, 0x20), (0x2002, 0x20), (0x2003, 0x20),
  (0x2004, 0x20), (0x2005, 0x20), (0x2006, 0x20), (0x2007, 0x20),
  (0x2008, 0x20), (0x2009, 0x20), (0x200A, 0x20), (0x205F, 0x20),
  (0x3000, 0x20)]

/-- `HOMOGLYPHS[ch]`, `undefined` becoming `none`. -/
def homoglyphRepl (u : Nat) : Option Nat :=
  (HOMOGLYPHS.find? (fun p => p.1 = u)).map (·.2)

/-- `isExpectedChar(text, index, ch)`: despite accepting the text and an
    index, it inspects only the character itself — a blanket exemption for
    NBSP, curly quotes and en/em dashes. -/
def isExpectedChar (_text : List Nat) (_index : Nat) (ch : Nat) : Bool :=
  ch = 0x00A0 || ch = 0x2018 || ch = 0x2019 ||
  ch = 0x201C || ch = 0x201D || ch = 0x2013 || ch = 0x2014

/-- The per-character effect of `clean`'s fix-homoglyphs step: the callback
    of `result.replace(HOMOGLYPH_REGEX, ...)`, which keeps the character if
    `isExpectedChar(result, 0, ch)` holds and otherwise substitutes
    `HOMOGLYPHS[ch]`.  Since `HOMOGLYPH_REGEX` matches exactly the keys of
    the table, applying this to every character of the string is the global
    replace.  (`ctx` is the in-progress result the source closure captures;
    it is passed on to `isExpectedChar`, which ignores it.) -/
def hgFix (ctx : List Nat) (u : Nat) : Nat :=
  match homoglyphRepl u with
  | some r => if isExpectedChar ctx 0 u then u else r
  | none => u

/-- First half of `escapeHTML` / the entity decoder: one global
    case-insensitive literal replace pass, scanning left to right,
    restarting after each replacement (`str.replace(/pat/gi, rep)`).
    The pattern is given lowercased and split into its first unit and the
    rest so that it is structurally non-empty. -/
def lowerU (u : Nat) : Nat := if 0x41 ≤ u && u ≤ 0x5A then u + 0x20 else u

/-- Case-insensitive literal prefix test. -/
def ciPref : List Nat → List Nat → Bool
  | [], _ => true
  | _ :: _, [] => false
  | p :: ps, c :: cs => (p = lowerU c) && ciPref ps cs

/-- `str.replace(/p ps/gi, rep)` on the code-unit model. -/
def replaceCI (p : Nat) (ps rep : List Nat) : List Nat → List Nat
  | [] => []
  | u :: rest =>
    if ciPref (p :: ps) (u :: rest) then
      rep ++ replaceCI p ps rep ((u :: rest).drop (ps.length + 1))
    else u :: replaceCI p ps rep rest
termination_by w => w.length
decreasing_by
  all_goals simp only [List.length_drop, List.length_cons]
  all_goals omega

/-- Position of the suffix after the first `>` of the input, if any:
    used to consume one `<[^>]*>` match. -/
def dropUntilGt : List Nat → Option (List Nat)
  | [] => none
  | u :: rest => if u = 0x3E then some rest else dropUntilGt rest

theorem dropUntilGt_length : ∀ w rest', dropUntilGt w = some rest' →
    rest'.length < w.length := by
  intro w
  induction w with
  | nil => intro rest' h; simp [dropUntilGt] at h
  | cons u rest ih =>
    intro rest' h
    simp only [dropUntilGt] at h
    split at h
    · cases h; simp
    · have := ih rest' h; simp; omega

/-- `result.replace(/<[^>]*>/g, '')`: remove every angle-bracket-delimited
    run; a `<` with no later `>` cannot start a match and is kept. -/
def stripTags : List Nat → List Nat
  | [] => []
  | u :: rest =>
    if u = 0x3C then
      match h : dropUntilGt rest with
      | some rest' => stripTags rest'
      | none => u :: rest
    else u :: stripTags rest
termination_by w => w.length
decreasing_by
  all_goals simp only [List.length_cons]
  all_goals first
    | omega
    | (rename_i h; exact Nat.lt_succ_of_lt (dropUntilGt_length _ _ h))

/-- The six entity-decoding passes of `clean`'s `stripHTML` step, in source
    order: `&nbsp;`, `&amp;`, `&lt;`, `&gt;`, `&quot;`, `&#39;`, each a
    global case-insensitive replace over the output of the previous pass. -/
def decodeEntities (w : List Nat) : List Nat :=
  replaceCI 0x26 (lit "#39;") (lit "'") <|
  replaceCI 0x26 (lit "quot;") (lit "\"") <|
  replaceCI 0x26 (lit "gt;") (lit ">") <|
  replaceCI 0x26 (lit "lt;") (lit "<") <|
  replaceCI 0x26 (lit "amp;") (lit "&") <|
  replaceCI 0x26 (lit "nbsp;") (lit " ") <|
  stripTags w

/-- Whitespace check for the trailing-space passes: the `[ \t]` class. -/
def isSpTab (u : Nat) : Bool := u = 0x20 || u = 0x09

/-- `result.replace(/[ \t]+$/gm, '')`: drop every maximal run of spaces/tabs
    that sits immediately before a line feed or at the end of the string.
    `go pend w` holds in `pend` the spaces/tabs read so far whose fate is
    still undecided. -/
def trailGo (pend : List Nat) : List Nat → List Nat
  | [] => []
  | u :: rest =>
    if u = 0x0A then 0x0A :: trailGo [] rest
    else if isSpTab u then trailGo (pend ++ [u]) rest
    else pend ++ u :: trailGo [] rest

/-- Trailing-whitespace removal (step 6 of `clean`). -/
def trail (w : List Nat) : List Nat := trailGo [] w

/-- `result.replace(/ {2,}/g, ' ')`: collapse every run of two or more
    plain spaces into a single space (a run of one is left as that same
    single space, so uniformly: each maximal run becomes one space). -/
def collapse : List Nat → List Nat
  | [] => []
  | u :: rest =>
    if u = 0x20 then 0x20 :: collapse (rest.dropWhile (· = 0x20))
    else u :: collapse rest
termination_by w => w.length
decreasing_by
  all_goals simp only [List.length_cons]
  all_goals first
    | omega
    | exact Nat.lt_succ_of_le ((List.dropWhile_sublist _).length_le)

/-- Options of `clean`: `normalize` defaults to true (the source tests
    `options.normalize !== false`), the rest to false; `stripSpaces` is
    accepted but never read, exactly as in the source. -/
structure CleanOptions where
  normalize : Bool := true
  fixHomoglyphs : Bool := false
  stripSpaces : Bool := false
  stripHTML : Bool := false
deriving DecidableEq

/-- `clean(text, options)`: the ordered pipeline — optional HTML stripping
    with entity decoding, removal of the `INVISIBLE_REGEX` class, removal of
    supplementary-plane pairs, optional NFC normalization, optional
    homoglyph fixing, trailing-whitespace removal, space collapsing. -/
def clean (options : CleanOptions) (text : List Nat) : List Nat :=
  let r0 := if options.stripHTML then decodeEntities text else text
  let r1 := r0.filter (fun u => !strippable u)
  let r2 := supp r1
  let r3 := if options.normalize then nfc r2 else r2
  let r4 := if options.fixHomoglyphs then r3.map (hgFix r3) else r3
  let r5 := trail r4
  collapse r5

/-! ## Surrogates and well-formedness -/

/-- High (leading) surrogate code unit. -/
def isHigh (u : Nat) : Bool := 0xD800 ≤ u && u ≤ 0xDBFF

/-- Low (trailing) surrogate code unit. -/
def isLow (u : Nat) : Bool := 0xDC00 ≤ u && u ≤ 0xDFFF

/-- Well-formed UTF-16: every high surrogate is immediately followed by a
    low surrogate and every low surrogate is immediately preceded by a high
    surrogate. -/
def wfb : List Nat → Bool
  | [] => true
  | u :: rest =>
    if isHigh u then
      match rest with
      | [] => false
      | l :: rest' => isLow l && wfb rest'
    else !isLow u && wfb rest

/-! ## Small generic list lemmas -/

theorem map_eq_self_of {f : Nat → Nat} {w : List Nat} (h : ∀ u ∈ w, f u = u) :
    w.map f = w := by
  induction w with
  | nil => rfl
  | cons u rest ih =>
    simp only [List.map_cons]
    rw [h u (by simp), ih (fun v hv => h v (by simp [hv]))]

theorem filter_eq_self_of {p : Nat → Bool} {w : List Nat}
    (h : ∀ u ∈ w, p u = true) : w.filter p = w :=
  List.filter_eq_self.mpr h

theorem dropWhile_eq_self_of_head {p : Nat → Bool} {w : List Nat}
    (h : ∀ y ∈ w.head?, p y = false) : w.dropWhile p = w := by
  cases w with
  | nil => rfl
  | cons x t => simp only [List.head?_cons, Option.mem_some_iff] at h
                simp [List.dropWhile_cons, h x rfl]

/-! ## Fixed-point characterisations of the cleaning passes -/

/-- Adjacency predicate whose chain rules out any match of
    `SUPPLEMENTARY_REGEX`. -/
def noSuppAdj (x y : Nat) : Prop := ¬(x = 0xDB40 ∧ suppLow y = true)

instance : DecidableRel noSuppAdj := fun _ _ => by unfold noSuppAdj; infer_instance

theorem supp_eq_self : ∀ {w : List Nat}, List.Chain' noSuppAdj w → supp w = w
  | [], _ => rfl
  | [u], _ => rfl
  | u :: l :: rest, h => by
    rcases List.chain'_cons.mp h with ⟨h1, h2⟩
    have : (u = 0xDB40 && suppLow l) = false := by
      unfold noSuppAdj at h1
      by_cases hu : u = 0xDB40 <;> simp [hu] at h1 ⊢
      exact Bool.not_eq_true _ ▸ (by simpa using h1)
    rw [supp, this]
    simp [supp_eq_self h2]

/-- Adjacency predicate whose chain rules out canonical composition. -/
def noCompAdj (x y : Nat) : Prop := composePair x y = none

instance : DecidableRel noCompAdj := fun _ _ => by unfold noCompAdj; infer_instance

/-- Local characterisation of the `nfc` fragment's normal forms:
    no decomposed-and-not-recomposable character, no composable adjacency. -/
def NFfixed (w : List Nat) : Prop := 0x344 ∉ w ∧ List.Chain' noCompAdj w

/-- Characters that are never a left component of a primary composite
    pass through `comp` unchanged. -/
theorem comp_notLeft {x : Nat} (h45 : x ≠ 0x45) (h41 : x ≠ 0x41) (t : List Nat) :
    comp (x :: t) = x :: comp t := by
  cases t with
  | nil => simp [comp]
  | cons y t' =>
    have : composePair x y = none := by simp [composePair, h45, h41]
    simp [comp, this]

theorem comp_cons_none {x y : Nat} (h : composePair x y = none) (t : List Nat) :
    comp (x :: y :: t) = x :: comp (y :: t) := by
  simp [comp, h]

theorem decompose_nil : decompose [] = [] := rfl

theorem decompose_cons (u : Nat) (rest : List Nat) :
    decompose (u :: rest) = nfcDecomp u ++ decompose rest := by
  simp [decompose]


theorem ccc_nonzero {u : Nat} (h : ccc u ≠ 0) : ccc u = 230 := by
  unfold ccc at h ⊢
  split at h <;> simp_all

theorem insCC_all230 {x : Nat} {l : List Nat} (hx : ccc x = 230)
    (hl : ∀ y ∈ l, ccc y = 230) : insCC x l = x :: l := by
  cases l with
  | nil => rfl
  | cons y t => simp [insCC, hx, hl y (by simp)]

theorem sortCC_all230 : ∀ {l : List Nat}, (∀ y ∈ l, ccc y = 230) → sortCC l = l
  | [], _ => rfl
  | x :: xs, h => by
    rw [sortCC, sortCC_all230 (fun y hy => h y (by simp [hy])),
        insCC_all230 (h x (by simp)) (fun y hy => h y (by simp [hy]))]

/-- On this fragment every non-starter has combining class 230, so canonical
    ordering never moves anything. -/
theorem reorder_eq_id : ∀ w : List Nat, reorder w = w := by
  intro w
  induction w using reorder.induct with
  | case1 => simp [reorder]
  | case2 x xs h ih => rw [reorder]; simp [h, ih]
  | case3 x xs h ih =>
    rw [reorder]
    simp only [h, if_neg]
    have hall : ∀ y ∈ x :: xs.takeWhile (fun u => ccc u ≠ 0), ccc y = 230 := by
      intro y hy
      rcases List.mem_cons.mp hy with rfl | hy'
      · exact ccc_nonzero (by simpa using h)
      · exact ccc_nonzero (by simpa using List.mem_takeWhile_imp hy')
    rw [sortCC_all230 hall, ih]
    simp [List.takeWhile_append_dropWhile]

theorem nfc_eq_comp_decompose (w : List Nat) : nfc w = comp (decompose w) := by
  rw [nfc, reorder_eq_id]

theorem nfcDecomp_C9 : nfcDecomp 0xC9 = [0x45, 0x301] := by simp [nfcDecomp]

theorem nfcDecomp_C0 : nfcDecomp 0xC0 = [0x41, 0x300] := by simp [nfcDecomp]

theorem nfcDecomp_344 : nfcDecomp 0x344 = [0x308, 0x301] := by simp [nfcDecomp]

theorem nfcDecomp_plain {u : Nat} (h9 : u ≠ 0xC9) (h0 : u ≠ 0xC0)
    (h3 : u ≠ 0x344) : nfcDecomp u = [u] := by simp [nfcDecomp, h9, h0, h3]

theorem comp_eq_pair45 (t : List Nat) :
    comp (0x45 :: 0x301 :: t) = comp (0xC9 :: t) := by
  have h : composePair 0x45 0x301 = some 0xC9 := by simp [composePair]
  rw [comp.eq_3, h]

theorem comp_eq_pair41 (t : List Nat) :
    comp (0x41 :: 0x300 :: t) = comp (0xC0 :: t) := by
  have h : composePair 0x41 0x300 = some 0xC0 := by simp [composePair]
  rw [comp.eq_3, h]

/-- Any string satisfying the local normal-form predicate is a fixed point
    of `nfc`: decomposition expands exactly the recomposable characters and
    composition folds them back. -/
theorem nfc_eq_self {w : List Nat} (hw : NFfixed w) : nfc w = w := by
  rw [nfc_eq_comp_decompose]
  have key : ∀ n (v : List Nat), v.length ≤ n → NFfixed v → comp (decompose v) = v := by
    intro n
    induction n with
    | zero =>
      intro v hl _
      have hv : v = [] := List.eq_nil_of_length_eq_zero (Nat.le_zero.mp hl)
      subst hv
      simp [decompose, comp]
    | succ n ih =>
      rintro v hl ⟨h344, hch⟩
      rcases v with _ | ⟨u, rest⟩
      · simp [decompose, comp]
      have hrest : NFfixed rest :=
        ⟨fun hm => h344 (by simp [hm]), hch.tail⟩
      have ihrest : comp (decompose rest) = rest :=
        ih rest (by simp at hl; omega) hrest
      have hu344 : u ≠ 0x344 := fun h => h344 (by simp [h])
      by_cases h9 : u = 0xC9
      · subst h9
        rw [decompose_cons, nfcDecomp_C9, List.cons_append, List.cons_append,
            List.nil_append, comp_eq_pair45,
            comp_notLeft (by norm_num) (by norm_num), ihrest]
      by_cases h0 : u = 0xC0
      · subst h0
        rw [decompose_cons, nfcDecomp_C0, List.cons_append, List.cons_append,
            List.nil_append, comp_eq_pair41,
            comp_notLeft (by norm_num) (by norm_num), ihrest]
      rw [decompose_cons, nfcDecomp_plain h9 h0 hu344, List.cons_append,
          List.nil_append]
      by_cases h45 : u = 0x45 ∨ u = 0x41
      · -- a possible left component: check that no pair can form with the
        -- head of the decomposition of `rest`
        rcases rest with _ | ⟨v, rest'⟩
        · simp [decompose, comp]
        have hv344 : v ≠ 0x344 := fun h => h344 (by simp [h])
        have hRuv : noCompAdj u v := (List.chain'_cons.mp hch).1
        rcases hde : decompose (v :: rest') with _ | ⟨b, t⟩
        · exfalso
          rw [decompose_cons] at hde
          rcases List.append_eq_nil.mp hde with ⟨hnil, _⟩
          by_cases hv9 : v = 0xC9
          · rw [hv9, nfcDecomp_C9] at hnil; cases hnil
          by_cases hv0 : v = 0xC0
          · rw [hv0, nfcDecomp_C0] at hnil; cases hnil
          · rw [nfcDecomp_plain hv9 hv0 hv344] at hnil; cases hnil
        · have hb : b = 0x45 ∨ b = 0x41 ∨ b = v := by
            rw [decompose_cons] at hde
            by_cases hv9 : v = 0xC9
            · rw [hv9, nfcDecomp_C9] at hde
              cases hde; left; rfl
            by_cases hv0 : v = 0xC0
            · rw [hv0, nfcDecomp_C0] at hde
              cases hde; right; left; rfl
            · rw [nfcDecomp_plain hv9 hv0 hv344] at hde
              cases hde; right; right; rfl
          have hnone : composePair u b = none := by
            unfold noCompAdj at hRuv
            rcases hb with rfl | rfl | rfl
            · simp [composePair]
            · simp [composePair]
            · exact hRuv
          rw [comp_cons_none hnone, ← hde, ihrest]
      · push_neg at h45
        rw [comp_notLeft h45.1 h45.2, ihrest]
  exact key w.length w le_rfl hw

theorem composePair_some {x y z : Nat} (h : composePair x y = some z) :
    z = 0xC9 ∨ z = 0xC0 := by
  unfold composePair at h
  split at h
  · left; injection h with h; omega
  · split at h
    · right; injection h with h; omega
    · cases h

theorem composePair_right_C9 (a : Nat) : composePair a 0xC9 = none := by
  simp [composePair]

theorem composePair_right_C0 (a : Nat) : composePair a 0xC0 = none := by
  simp [composePair]

theorem comp_head? : ∀ v : List Nat,
    (comp v).head? = v.head? ∨ (comp v).head? = some 0xC9 ∨
      (comp v).head? = some 0xC0 := by
  intro v
  induction v using comp.induct with
  | case1 => left; simp [comp]
  | case2 x => left; simp [comp]
  | case3 x y t z hz ih =>
    simp only [comp.eq_3, hz]
    have hne45 : z ≠ 0x45 := by rcases composePair_some hz with rfl | rfl <;> norm_num
    have hne41 : z ≠ 0x41 := by rcases composePair_some hz with rfl | rfl <;> norm_num
    rw [comp_notLeft hne45 hne41]
    rcases composePair_some hz with rfl | rfl
    · right; left; simp
    · right; right; simp
  | case4 x y t hz ih =>
    simp only [comp.eq_3, hz]
    left; simp

/-- The output of canonical composition never contains a composable
    adjacency: composition is greedy. -/
theorem comp_chain : ∀ v : List Nat, List.Chain' noCompAdj (comp v) := by
  intro v
  induction v using comp.induct with
  | case1 => simp [comp, List.chain'_nil]
  | case2 x => simp [comp]
  | case3 x y t z hz ih => simp only [comp.eq_3, hz]; exact ih
  | case4 x y t hz ih =>
    simp only [comp.eq_3, hz]
    refine ih.cons' ?_
    intro b hb
    rcases comp_head? (y :: t) with hh | hh | hh
    · rw [hh] at hb
      simp at hb
      subst hb
      exact hz
    · rw [hh] at hb
      simp at hb
      subst hb
      exact composePair_right_C9 x
    · rw [hh] at hb
      simp at hb
      subst hb
      exact composePair_right_C0 x

theorem mem_nfcDecomp {u v : Nat} (h : u ∈ nfcDecomp v) :
    u = v ∨ u ∈ ([0x45, 0x301, 0x41, 0x300, 0x308] : List Nat) := by
  unfold nfcDecomp at h
  split at h
  · simp at h; rcases h with rfl | rfl <;> simp
  · split at h
    · simp at h; rcases h with rfl | rfl <;> simp
    · split at h
      · simp at h; rcases h with rfl | rfl <;> simp
      · simp at h; left; exact h

theorem mem_decompose {u : Nat} {w : List Nat} (h : u ∈ decompose w) :
    u ∈ w ∨ u ∈ ([0x45, 0x301, 0x41, 0x300, 0x308] : List Nat) := by
  unfold decompose at h
  rcases List.mem_flatMap.mp h with ⟨v, hv, hu⟩
  rcases mem_nfcDecomp hu with rfl | hmem
  · left; exact hv
  · right; exact hmem

theorem mem_comp {u : Nat} : ∀ {v : List Nat}, u ∈ comp v →
    u ∈ v ∨ u = 0xC9 ∨ u = 0xC0 := by
  intro v
  induction v using comp.induct with
  | case1 => intro h; simp [comp] at h
  | case2 x => intro h; simp [comp] at h; left; simp [h]
  | case3 x y t z hz ih =>
    simp only [comp.eq_3, hz]
    intro h
    rcases ih h with hm | hm | hm
    · rcases List.mem_cons.mp hm with rfl | hm'
      · rcases composePair_some hz with rfl | rfl
        · right; left; rfl
        · right; right; rfl
      · left; simp [hm']
    · right; left; exact hm
    · right; right; exact hm
  | case4 x y t hz ih =>
    simp only [comp.eq_3, hz]
    intro h
    rcases List.mem_cons.mp h with rfl | hm
    · left; simp
    · rcases ih hm with hm' | hm' | hm'
      · left; simp [List.mem_cons.mp hm']
      · right; left; exact hm'
      · right; right; exact hm'

theorem mem_nfc {u : Nat} {w : List Nat} (h : u ∈ nfc w) :
    u ∈ w ∨ u ∈ ([0x45, 0x301, 0x41, 0x300, 0x308, 0xC9, 0xC0] : List Nat) := by
  rw [nfc_eq_comp_decompose] at h
  rcases mem_comp h with hm | rfl | rfl
  · rcases mem_decompose hm with hm' | hm'
    · left; exact hm'
    · right; simp at hm' ⊢; tauto
  · right; simp
  · right; simp

/-- The output of `nfc` satisfies the local normal-form predicate: `nfc` is
    idempotent. -/
theorem NFfixed_nfc (w : List Nat) : NFfixed (nfc w) := by
  constructor
  · intro h
    rw [nfc_eq_comp_decompose] at h
    rcases mem_comp h with hm | hm | hm
    · rcases List.mem_flatMap.mp (by unfold decompose at hm; exact hm) with ⟨v, _, hu⟩
      rcases mem_nfcDecomp hu with rfl | hm'
      · rw [nfcDecomp_344] at hu
        simp at hu
      · simp at hm'
    · cases hm
    · cases hm
  · rw [nfc_eq_comp_decompose]
    exact comp_chain _

/-! ## Sublist and chain lemmas for the whitespace passes -/

theorem chain'_of_append_right {R : Nat → Nat → Prop} {a b : List Nat}
    (h : List.Chain' R (a ++ b)) : List.Chain' R b :=
  (List.chain'_append.mp h).2.1

theorem chain'_dropWhile {R : Nat → Nat → Prop} {p : Nat → Bool} :
    ∀ {l : List Nat}, List.Chain' R l → List.Chain' R (l.dropWhile p)
  | [], _ => by simp
  | x :: t, h => by
    rw [List.dropWhile_cons]
    split
    · exact chain'_dropWhile h.tail
    · exact h

theorem head?_dropWhile_false {p : Nat → Bool} :
    ∀ {l : List Nat}, ∀ b ∈ (l.dropWhile p).head?, p b = false
  | [], b, hb => by simp at hb
  | x :: t, b, hb => by
    rw [List.dropWhile_cons] at hb
    split at hb
    · exact head?_dropWhile_false b hb
    · simp at hb
      subst hb
      rename_i hpx
      simpa using hpx

theorem chain'_skip_const {R : Nat → Nat → Prop} {a : Nat} {p : Nat → Bool}
    (hp : ∀ x, p x = true → x = a) :
    ∀ {l : List Nat}, List.Chain' R (a :: l) →
      ∀ b ∈ (l.dropWhile p).head?, R a b := by
  intro l
  induction l with
  | nil => intro _ b hb; simp at hb
  | cons y t ih =>
    intro h b hb
    rw [List.dropWhile_cons] at hb
    split at hb
    · have hy : y = a := hp y (by assumption)
      subst hy
      exact ih h.tail b hb
    · simp at hb
      subst hb
      exact (List.chain'_cons.mp h).1

theorem collapse_head? : ∀ w : List Nat, (collapse w).head? = w.head? := by
  intro w
  induction w using collapse.induct with
  | case1 => simp [collapse]
  | case2 rest ih => simp [collapse]
  | case3 u rest h ih => simp [collapse, h]

theorem collapse_sublist : ∀ w : List Nat, List.Sublist (collapse w) w := by
  intro w
  induction w using collapse.induct with
  | case1 => simp [collapse]
  | case2 rest ih =>
    simp only [collapse, if_pos rfl]
    exact (ih.trans (List.dropWhile_sublist _)).cons₂ _
  | case3 u rest h ih =>
    simp only [collapse, if_neg h]
    exact ih.cons₂ _

theorem collapse_chain {R : Nat → Nat → Prop} :
    ∀ {w : List Nat}, List.Chain' R w → List.Chain' R (collapse w) := by
  intro w
  induction w using collapse.induct with
  | case1 => intro _; simp [collapse]
  | case2 rest ih =>
    intro hch
    simp only [collapse, if_pos rfl]
    refine (ih (chain'_dropWhile hch.tail)).cons' ?_
    intro b hb
    rw [collapse_head?] at hb
    exact chain'_skip_const (fun x hx => by simpa using hx) hch b hb
  | case3 u rest h ih =>
    intro hch
    simp only [collapse, if_neg h]
    refine (ih hch.tail).cons' ?_
    intro b hb
    rw [collapse_head?] at hb
    exact (List.chain'_cons'.mp hch).1 b hb

/-- No two adjacent plain spaces: the fixed points of `collapse`. -/
def noDblSp (x y : Nat) : Prop := ¬(x = 0x20 ∧ y = 0x20)

instance : DecidableRel noDblSp := fun _ _ => by unfold noDblSp; infer_instance

theorem collapse_noDbl : ∀ w : List Nat, List.Chain' noDblSp (collapse w) := by
  intro w
  induction w using collapse.induct with
  | case1 => simp [collapse]
  | case2 rest ih =>
    simp only [collapse, if_pos rfl]
    refine ih.cons' ?_
    intro b hb
    rw [collapse_head?] at hb
    have := head?_dropWhile_false b hb
    unfold noDblSp
    rintro ⟨-, rfl⟩
    simp at this
  | case3 u rest h ih =>
    simp only [collapse, if_neg h]
    refine ih.cons' ?_
    intro b _
    unfold noDblSp
    rintro ⟨rfl, -⟩
    exact h rfl

theorem collapse_eq_self : ∀ {w : List Nat}, List.Chain' noDblSp w → collapse w = w := by
  intro w
  induction w using collapse.induct with
  | case1 => intro _; simp [collapse]
  | case2 rest ih =>
    intro hch
    simp only [collapse, if_pos rfl]
    have hdw : rest.dropWhile (· = 0x20) = rest := by
      refine dropWhile_eq_self_of_head ?_
      intro y hy
      have := (List.chain'_cons'.mp hch).1 y hy
      unfold noDblSp at this
      simp only [decide_eq_false_iff_not]
      intro hy20
      exact this ⟨rfl, hy20⟩
    rw [hdw] at ih ⊢
    rw [ih hch.tail]
    simp
  | case3 u rest h ih =>
    intro hch
    simp only [collapse, if_neg h]
    rw [ih hch.tail]

theorem trailGo_sublist : ∀ (w pend : List Nat),
    List.Sublist (trailGo pend w) (pend ++ w) := by
  intro w
  induction w with
  | nil => intro pend; simp [trailGo]
  | cons u rest ih =>
    intro pend
    simp only [trailGo]
    split
    · rename_i h0A
      subst h0A
      exact ((by simpa using ih [] : List.Sublist (trailGo [] rest) rest).cons₂ _).trans
        (List.sublist_append_right pend _)
    · split
      · have := ih (pend ++ [u])
        rw [List.append_assoc] at this
        simpa using this
      · exact List.Sublist.append_left
          ((by simpa using ih [] : List.Sublist (trailGo [] rest) rest).cons₂ _) pend

theorem trail_sublist (w : List Nat) : List.Sublist (trail w) w := by
  simpa using trailGo_sublist w []

theorem trailGo_chain {R : Nat → Nat → Prop} (Hnl : ∀ a, R a 0x0A) :
    ∀ (w pend : List Nat), List.Chain' R (pend ++ w) →
      List.Chain' R (trailGo pend w) ∧
      ∀ b ∈ (trailGo pend w).head?, (pend ++ w).head? = some b ∨ b = 0x0A := by
  intro w
  induction w with
  | nil =>
    intro pend h
    refine ⟨by simp [trailGo], ?_⟩
    intro b hb
    simp [trailGo] at hb
  | cons u rest ih =>
    intro pend h
    simp only [trailGo]
    split
    · rename_i h0A
      subst h0A
      have hur : List.Chain' R (0x0A :: rest) := chain'_of_append_right h
      obtain ⟨chT, hdT⟩ := ih [] (by simpa using hur.tail)
      constructor
      · refine chT.cons' ?_
        intro b hb
        rcases hdT b hb with hb' | rfl
        · simp at hb'
          exact (List.chain'_cons'.mp hur).1 b hb'
        · exact Hnl _
      · intro b hb
        simp at hb
        right
        omega
    · split
      · have h' : List.Chain' R ((pend ++ [u]) ++ rest) := by
          rw [List.append_assoc]
          simpa using h
        obtain ⟨chT, hdT⟩ := ih (pend ++ [u]) h'
        refine ⟨chT, ?_⟩
        intro b hb
        rcases hdT b hb with hb' | rfl
        · left
          rw [List.append_assoc] at hb'
          simpa using hb'
        · right; rfl
      · have hur : List.Chain' R (u :: rest) := chain'_of_append_right h
        obtain ⟨chT, hdT⟩ := ih [] (by simpa using hur.tail)
        have hcons : List.Chain' R (u :: trailGo [] rest) := by
          refine chT.cons' ?_
          intro b hb
          rcases hdT b hb with hb' | rfl
          · simp at hb'
            exact (List.chain'_cons'.mp hur).1 b hb'
          · exact Hnl _
        constructor
        · rw [List.chain'_append] at h ⊢
          obtain ⟨hp, _, hbd⟩ := h
          exact ⟨hp, hcons, fun x hx y hy => by
            simp at hy
            subst hy
            exact hbd x hx u (by simp)⟩
        · intro b hb
          left
          cases pend with
          | nil => simpa using hb
          | cons p pend' => simpa using hb

/-! ## Fixed points of the trailing-whitespace pass -/

/-- No space/tab immediately before a line feed or at the end of the string:
    the fixed points of `trail`. -/
def ntr : List Nat → Bool
  | [] => true
  | u :: rest =>
    if isSpTab u then
      (match rest with
       | [] => false
       | v :: _ => decide (v ≠ 0x0A)) && ntr rest
    else ntr rest

theorem ntr_tail {u : Nat} {rest : List Nat} (h : ntr (u :: rest) = true) :
    ntr rest = true := by
  unfold ntr at h
  split at h
  · simp only [Bool.and_eq_true] at h
    exact h.2
  · exact h

theorem ntr_append_right : ∀ {a b : List Nat}, ntr (a ++ b) = true → ntr b = true := by
  intro a
  induction a with
  | nil => intro b h; simpa using h
  | cons x a' ih => intro b h; exact ih (ntr_tail h)

theorem ntr_dropWhile {p : Nat → Bool} :
    ∀ {l : List Nat}, ntr l = true → ntr (l.dropWhile p) = true := by
  intro l
  induction l with
  | nil => intro h; simpa using h
  | cons x t ih =>
    intro h
    rw [List.dropWhile_cons]
    split
    · exact ih (ntr_tail h)
    · exact h

theorem isSpTab_ne_nl {u : Nat} (h : isSpTab u = true) : u ≠ 0x0A := by
  unfold isSpTab at h
  simp at h
  omega

/-- Gluing a run of spaces/tabs onto a string whose head is neither a line
    feed nor absent preserves the predicate. -/
theorem ntr_append_ws : ∀ {pend : List Nat} {u : Nat} {X : List Nat},
    (∀ x ∈ pend, isSpTab x = true) → u ≠ 0x0A → ntr (u :: X) = true →
    ntr (pend ++ u :: X) = true := by
  intro pend
  induction pend with
  | nil => intro u X _ _ h; simpa using h
  | cons p pend' ih =>
    intro u X hall hu h
    have hp : isSpTab p = true := hall p (by simp)
    have hrec := ih (fun x hx => hall x (by simp [hx])) hu h
    rw [List.cons_append]
    simp only [ntr]
    rw [if_pos hp, Bool.and_eq_true]
    refine ⟨?_, hrec⟩
    cases pend' with
    | nil => simpa using hu
    | cons q pend'' =>
      have hq : isSpTab q = true := hall q (by simp)
      simpa using isSpTab_ne_nl hq

/-- A nonempty all-space/tab string violates `ntr` (run at end). -/
theorem ntr_ws_end_false : ∀ {pend : List Nat}, pend ≠ [] →
    (∀ x ∈ pend, isSpTab x = true) → ntr pend = false := by
  intro pend
  induction pend with
  | nil => intro h _; exact absurd rfl h
  | cons p pend' ih =>
    intro _ hall
    have hp : isSpTab p = true := hall p (by simp)
    simp only [ntr]
    rw [if_pos hp]
    cases pend' with
    | nil => simp
    | cons q pend'' =>
      rw [ih (by simp) (fun x hx => hall x (by simp [hx]))]
      simp

/-- A nonempty all-space/tab run just before a line feed violates `ntr`. -/
theorem ntr_ws_nl_false : ∀ {pend : List Nat} {rest : List Nat}, pend ≠ [] →
    (∀ x ∈ pend, isSpTab x = true) → ntr (pend ++ 0x0A :: rest) = false := by
  intro pend
  induction pend with
  | nil => intro rest h _; exact absurd rfl h
  | cons p pend' ih =>
    intro rest _ hall
    have hp : isSpTab p = true := hall p (by simp)
    rw [List.cons_append]
    simp only [ntr]
    rw [if_pos hp]
    cases pend' with
    | nil => simp
    | cons q pend'' =>
      rw [ih (by simp) (fun x hx => hall x (by simp [hx]))]
      simp

theorem trailGo_eq_self : ∀ {w pend : List Nat},
    (∀ x ∈ pend, isSpTab x = true) → ntr (pend ++ w) = true →
    trailGo pend w = pend ++ w := by
  intro w
  induction w with
  | nil =>
    intro pend hall h
    rcases pend with _ | ⟨p, pend'⟩
    · rfl
    · rw [List.append_nil] at h
      rw [ntr_ws_end_false (by simp) hall] at h
      cases h
  | cons u rest ih =>
    intro pend hall h
    simp only [trailGo]
    split
    · rename_i h0A
      subst h0A
      rcases pend with _ | ⟨p, pend'⟩
      · simp only [List.nil_append] at h ⊢
        rw [ih (by simp) (by simpa using ntr_tail h)]
        simp
      · rw [ntr_ws_nl_false (by simp) hall] at h
        cases h
    · split
      · rename_i hsp
        have := @ih (pend ++ [u])
          (by intro x hx
              rcases List.mem_append.mp hx with hx' | hx'
              · exact hall x hx'
              · simp at hx'; subst hx'; assumption)
          (by rw [List.append_assoc]; simpa using h)
        rw [this, List.append_assoc]
        simp
      · rename_i hnl hsp
        have hrest : ntr rest = true := ntr_tail (ntr_append_right h)
        rw [@ih [] (by simp) (by simpa using hrest)]
        simp

theorem ntr_trailGo : ∀ (w pend : List Nat), (∀ x ∈ pend, isSpTab x = true) →
    ntr (trailGo pend w) = true := by
  intro w
  induction w with
  | nil => intro pend _; simp [trailGo, ntr]
  | cons u rest ih =>
    intro pend hall
    simp only [trailGo]
    split
    · simp only [ntr]
      rw [if_neg (by simp [isSpTab])]
      exact ih [] (by simp)
    · split
      · rename_i hsp
        refine ih (pend ++ [u]) ?_
        intro x hx
        rcases List.mem_append.mp hx with hx' | hx'
        · exact hall x hx'
        · simp at hx'
          subst hx'
          assumption
      · rename_i hnl hsp
        refine ntr_append_ws hall hnl ?_
        simp only [ntr]
        rw [if_neg hsp]
        exact ih [] (by simp)

theorem trail_eq_self {w : List Nat} (h : ntr w = true) : trail w = w := by
  unfold trail
  rw [trailGo_eq_self (by simp) (by simpa using h)]
  simp

theorem ntr_trail (w : List Nat) : ntr (trail w) = true :=
  ntr_trailGo w [] (by simp)

theorem ntr_cons_sp {u : Nat} {rest : List Nat} (hsp : isSpTab u = true)
    (h : ntr (u :: rest) = true) :
    (∃ v t, rest = v :: t ∧ v ≠ 0x0A) ∧ ntr rest = true := by
  simp only [ntr, if_pos hsp, Bool.and_eq_true] at h
  rcases rest with _ | ⟨v, t⟩
  · simp at h
  · refine ⟨⟨v, t, rfl, ?_⟩, h.2⟩
    simpa using h.1

theorem ntr_spaceRun : ∀ {rest : List Nat}, ntr (0x20 :: rest) = true →
    ∃ b t', rest.dropWhile (· = 0x20) = b :: t' ∧ b ≠ 0x0A := by
  intro rest
  induction rest with
  | nil =>
    intro h
    rcases (ntr_cons_sp (by simp [isSpTab]) h).1 with ⟨v, t, ht, -⟩
    cases ht
  | cons v t ih =>
    intro h
    obtain ⟨⟨v', t', heq, hv'⟩, hrest⟩ := ntr_cons_sp (by simp [isSpTab]) h
    injection heq with h1 h2
    subst h1
    by_cases hv20 : v = 0x20
    · subst hv20
      rw [List.dropWhile_cons_of_pos (by simp)]
      exact ih hrest
    · rw [List.dropWhile_cons_of_neg (by simpa using hv20)]
      exact ⟨v, t, rfl, hv'⟩

theorem ntr_cons_cons {u v : Nat} {t : List Nat} (hv : v ≠ 0x0A)
    (ht : ntr (v :: t) = true) : ntr (u :: v :: t) = true := by
  show (if isSpTab u = true then decide (v ≠ 0x0A) && ntr (v :: t)
        else ntr (v :: t)) = true
  split
  · simp [hv, ht]
  · exact ht

theorem ntr_collapse : ∀ {v : List Nat}, ntr v = true → ntr (collapse v) = true := by
  intro v
  induction v using collapse.induct with
  | case1 => intro h; simpa [collapse] using h
  | case2 rest ih =>
    intro h
    obtain ⟨b, t', hdw, hb⟩ := ntr_spaceRun h
    simp only [collapse, if_pos rfl]
    have hh : (collapse (rest.dropWhile (· = 0x20))).head? = some b := by
      rw [collapse_head?, hdw]
      rfl
    rcases hc : collapse (rest.dropWhile (· = 0x20)) with _ | ⟨c, cs⟩
    · rw [hc] at hh; cases hh
    · rw [hc] at hh
      injection hh with hh
      subst hh
      have h2 := ih (ntr_dropWhile (ntr_tail h))
      rw [hc] at h2
      simp only [if_true]
      exact ntr_cons_cons hb h2
  | case3 u rest h ih =>
    intro hn
    simp only [collapse, if_neg h]
    by_cases hsp : isSpTab u = true
    · obtain ⟨⟨v, t, ht, hv⟩, hrest⟩ := ntr_cons_sp hsp hn
      have hh : (collapse rest).head? = some v := by
        rw [collapse_head?, ht]
        rfl
      rcases hc : collapse rest with _ | ⟨c, cs⟩
      · rw [hc] at hh; cases hh
      · rw [hc] at hh
        injection hh with hh
        subst hh
        have h2 := ih hrest
        rw [hc] at h2
        exact ntr_cons_cons hv h2
    · simp only [ntr, if_neg hsp]
      exact ih (ntr_tail hn)

/-- The last two passes of `clean` stabilise after one round. -/
theorem trail_collapse_idem (v : List Nat) :
    collapse (trail (collapse (trail v))) = collapse (trail v) := by
  rw [trail_eq_self (ntr_collapse (ntr_trail v)),
      collapse_eq_self (collapse_noDbl (trail v))]

/-! ## Chain preservation through the normalization passes -/

theorem nfcDecomp_ne_nil (u : Nat) : nfcDecomp u ≠ [] := by
  unfold nfcDecomp
  split
  · simp
  · split
    · simp
    · split <;> simp

theorem nfcDecomp_getLast? (u : Nat) :
    (nfcDecomp u).getLast? = some 0x301 ∨ (nfcDecomp u).getLast? = some 0x300 ∨
      (nfcDecomp u).getLast? = some u := by
  unfold nfcDecomp
  split
  · left; rfl
  · split
    · right; left; rfl
    · split
      · left; rfl
      · right; right; rfl

theorem nfcDecomp_head? (u : Nat) :
    (nfcDecomp u).head? = some 0x45 ∨ (nfcDecomp u).head? = some 0x41 ∨
      (nfcDecomp u).head? = some 0x308 ∨ (nfcDecomp u).head? = some u := by
  unfold nfcDecomp
  split
  · left; rfl
  · split
    · right; left; rfl
    · split
      · right; right; left; rfl
      · right; right; right; rfl

theorem chain'_nfcDecomp {R : Nat → Nat → Prop}
    (h1 : R 0x45 0x301) (h2 : R 0x41 0x300) (h3 : R 0x308 0x301) (u : Nat) :
    List.Chain' R (nfcDecomp u) := by
  unfold nfcDecomp
  split
  · simpa using h1
  · split
    · simpa using h2
    · split
      · simpa using h3
      · simp

theorem decompose_head?_eq {y : Nat} {rest : List Nat} :
    (decompose (y :: rest)).head? = (nfcDecomp y).head? := by
  rw [decompose_cons]
  rcases hd : nfcDecomp y with _ | ⟨c, cs⟩
  · exact absurd hd (nfcDecomp_ne_nil y)
  · simp

theorem decompose_nsp : ∀ {w : List Nat}, List.Chain' noSuppAdj w →
    List.Chain' noSuppAdj (decompose w) := by
  intro w
  induction w with
  | nil => intro _; simp [decompose]
  | cons x rest ih =>
    intro h
    rw [decompose_cons]
    rw [List.chain'_append]
    refine ⟨chain'_nfcDecomp (by unfold noSuppAdj; simp) (by unfold noSuppAdj; simp)
      (by unfold noSuppAdj; simp) x, ih h.tail, ?_⟩
    intro a ha b hb
    rcases rest with _ | ⟨y, rest'⟩
    · simp [decompose] at hb
    · rw [decompose_head?_eq] at hb
      have hxy : noSuppAdj x y := (List.chain'_cons.mp h).1
      rcases nfcDecomp_head? y with hh | hh | hh | hh <;> rw [hh] at hb <;>
          simp at hb <;> subst hb
      · unfold noSuppAdj suppLow; simp
      · unfold noSuppAdj suppLow; simp
      · unfold noSuppAdj suppLow; simp
      · rcases nfcDecomp_getLast? x with hl | hl | hl <;> rw [hl] at ha <;>
            simp at ha <;> subst ha
        · unfold noSuppAdj; simp
        · unfold noSuppAdj; simp
        · exact hxy

theorem comp_chain_pres {R : Nat → Nat → Prop}
    (hrC9 : ∀ a, R a 0xC9) (hrC0 : ∀ a, R a 0xC0)
    (hlC9 : ∀ b, R 0xC9 b) (hlC0 : ∀ b, R 0xC0 b) :
    ∀ {v : List Nat}, List.Chain' R v → List.Chain' R (comp v) := by
  intro v
  induction v using comp.induct with
  | case1 => intro _; simp [comp]
  | case2 x => intro _; simp [comp]
  | case3 x y t z hz ih =>
    intro h
    simp only [comp.eq_3, hz]
    refine ih ?_
    rcases composePair_some hz with rfl | rfl
    · exact (h.tail).tail.cons' (fun b _ => hlC9 b)
    · exact (h.tail).tail.cons' (fun b _ => hlC0 b)
  | case4 x y t hz ih =>
    intro h
    simp only [comp.eq_3, hz]
    refine (ih h.tail).cons' ?_
    intro b hb
    rcases comp_head? (y :: t) with hh | hh | hh <;> rw [hh] at hb <;> simp at hb <;>
        subst hb
    · exact (List.chain'_cons.mp h).1
    · exact hrC9 x
    · exact hrC0 x

theorem nfc_nsp {w : List Nat} (h : List.Chain' noSuppAdj w) :
    List.Chain' noSuppAdj (nfc w) := by
  rw [nfc_eq_comp_decompose]
  refine comp_chain_pres ?_ ?_ ?_ ?_ (decompose_nsp h)
  · intro a; unfold noSuppAdj suppLow; simp
  · intro a; unfold noSuppAdj suppLow; simp
  · intro b; unfold noSuppAdj; simp
  · intro b; unfold noSuppAdj; simp

/-! ## Homoglyph-table facts -/

theorem homoglyphRepl_mem {u r : Nat} (h : homoglyphRepl u = some r) :
    (u, r) ∈ HOMOGLYPHS := by
  unfold homoglyphRepl at h
  rcases Option.map_eq_some'.mp h with ⟨p, hp, hr⟩
  have hmem := List.mem_of_find?_eq_some hp
  have hkey := List.find?_some hp
  simp at hkey
  rcases p with ⟨k, v⟩
  simp at hkey hr
  subst hkey
  subst hr
  exact hmem

set_option maxRecDepth 40000 in
/-- Every replacement value of the homoglyph table is a plain ASCII
    character: printable (≥ space), at most `z`, not itself a key, and not
    in the strippable class. -/
theorem hg_values_ok : ∀ p ∈ HOMOGLYPHS,
    0x20 ≤ p.2 ∧ p.2 ≤ 0x7A ∧ homoglyphRepl p.2 = none ∧ strippable p.2 = false := by
  decide

set_option maxRecDepth 40000 in
/-- Every key of the homoglyph table lies between U+00A0 and U+FF5A. -/
theorem hg_keys_range : ∀ p ∈ HOMOGLYPHS, 0xA0 ≤ p.1 ∧ p.1 ≤ 0xFF5A := by
  decide

theorem hgFix_cases (ctx : List Nat) (u : Nat) :
    hgFix ctx u = u ∨ ∃ r, homoglyphRepl u = some r ∧ hgFix ctx u = r := by
  cases h : homoglyphRepl u with
  | none => left; simp [hgFix, h]
  | some r =>
    simp only [hgFix, h]
    split
    · left; rfl
    · right; exact ⟨r, rfl, rfl⟩

/-- `hgFix` ignores its context argument. -/
theorem hgFix_ctx (c c' : List Nat) (u : Nat) : hgFix c u = hgFix c' u := rfl

theorem hgFix_idem (c c' : List Nat) (u : Nat) :
    hgFix c (hgFix c' u) = hgFix c' u := by
  rcases hgFix_cases c' u with h | ⟨r, hr, h⟩
  · rw [h, hgFix_ctx c c', h]
  · rw [h]
    have hv := (hg_values_ok _ (homoglyphRepl_mem hr)).2.2.1
    simp [hgFix, hv]

theorem hgFix_bounds (ctx : List Nat) (u : Nat) :
    hgFix ctx u = u ∨ (0x20 ≤ hgFix ctx u ∧ hgFix ctx u ≤ 0x7A) := by
  rcases hgFix_cases ctx u with h | ⟨r, hr, h⟩
  · left; exact h
  · right
    have hv := hg_values_ok _ (homoglyphRepl_mem hr)
    rw [h]
    exact ⟨hv.1, hv.2.1⟩

theorem hgFix_nsp {ctx : List Nat} {w : List Nat}
    (h : List.Chain' noSuppAdj w) : List.Chain' noSuppAdj (w.map (hgFix ctx)) := by
  refine List.chain'_map_of_chain' (hgFix ctx) ?_ h
  intro a b hab
  unfold noSuppAdj at *
  rintro ⟨ha, hb⟩
  refine hab ⟨?_, ?_⟩
  · rcases hgFix_bounds ctx a with h' | h'
    · rw [← h', ha]
    · rw [ha] at h'; omega
  · rcases hgFix_bounds ctx b with h' | h'
    · rw [← h', hb]
    · simp [suppLow] at hb
      omega

/-! ## Strippable-character facts used by the pipeline -/

theorem strippable_nfc_consts :
    strippable 0x45 = false ∧ strippable 0x41 = false ∧ strippable 0x300 = false ∧
    strippable 0x301 = false ∧ strippable 0x308 = false ∧ strippable 0xC9 = false ∧
    strippable 0xC0 = false := by
  decide

theorem supp_sublist : ∀ w : List Nat, List.Sublist (supp w) w := by
  intro w
  induction w using supp.induct with
  | case1 => simp [supp]
  | case2 v => simp [supp]
  | case3 v l rest hc ih =>
    rw [supp, if_pos hc]
    exact ih.trans ((List.sublist_cons_self _ _).trans (List.sublist_cons_self _ _))
  | case4 v l rest hc ih =>
    rw [supp, if_neg hc]
    exact ih.cons₂ _

theorem mem_supp {u : Nat} {w : List Nat} (h : u ∈ supp w) : u ∈ w :=
  (supp_sublist w).mem h

/-! ## Well-formedness: destructors and preservation -/

theorem wfb_cons_bmp {u : Nat} {rest : List Nat} (h1 : isHigh u = false)
    (h2 : isLow u = false) : wfb (u :: rest) = wfb rest := by
  rw [wfb.eq_def]
  simp [h1, h2]

theorem wfb_cons_pair {h l : Nat} {rest : List Nat} (hh : isHigh h = true)
    (hl : isLow l = true) : wfb (h :: l :: rest) = wfb rest := by
  rw [wfb.eq_def]
  simp [hh, hl]

theorem wfb_cases {u : Nat} {rest : List Nat} (h : wfb (u :: rest) = true) :
    (isHigh u = false ∧ isLow u = false ∧ wfb rest = true) ∨
    (∃ l rest', rest = l :: rest' ∧ isHigh u = true ∧ isLow l = true ∧
      wfb rest' = true) := by
  unfold wfb at h
  split at h
  · rename_i hhigh
    rcases rest with _ | ⟨l, rest'⟩
    · exact absurd h (by simp)
    · have h' : (isLow l && wfb rest') = true := h
      simp only [Bool.and_eq_true] at h'
      right
      exact ⟨l, rest', rfl, hhigh, h'.1, h'.2⟩
  · rename_i hhigh
    simp only [Bool.and_eq_true, Bool.not_eq_true'] at h
    left
    exact ⟨by simpa using hhigh, h.1, h.2⟩

theorem isLow_ne_DB40 {l : Nat} (h : isLow l = true) : l ≠ 0xDB40 := by
  simp [isLow] at h
  omega

theorem not_isHigh_ne_DB40 {u : Nat} (h : isHigh u = false) : u ≠ 0xDB40 := by
  simp [isHigh] at h
  omega

theorem noSuppAdj_of_ne {x y : Nat} (h : x ≠ 0xDB40) : noSuppAdj x y :=
  fun hx => h hx.1

theorem supp_cons_of_ne {l : Nat} (h : l ≠ 0xDB40) (t : List Nat) :
    supp (l :: t) = l :: supp t := by
  cases t with
  | nil => rfl
  | cons r t' => rw [supp, if_neg (by simp [h])]

theorem wfb_filter {p : Nat → Bool}
    (hsur : ∀ u, (isHigh u = true ∨ isLow u = true) → p u = true) :
    ∀ {w : List Nat}, wfb w = true → wfb (w.filter p) = true := by
  have key : ∀ n (w : List Nat), w.length ≤ n → wfb w = true →
      wfb (w.filter p) = true := by
    intro n
    induction n with
    | zero =>
      intro w hl _
      have hw : w = [] := List.eq_nil_of_length_eq_zero (Nat.le_zero.mp hl)
      subst hw
      rfl
    | succ n ih =>
      intro w hl hw
      rcases w with _ | ⟨u, rest⟩
      · rfl
      rcases wfb_cases hw with ⟨h1, h2, h3⟩ | ⟨l, rest', rfl, hh, hlo, h3⟩
      · rw [List.filter_cons]
        split
        · rw [wfb_cons_bmp h1 h2]
          exact ih rest (by simp at hl; omega) h3
        · exact ih rest (by simp at hl; omega) h3
      · rw [List.filter_cons, if_pos (hsur u (Or.inl hh)), List.filter_cons,
            if_pos (hsur l (Or.inr hlo)), wfb_cons_pair hh hlo]
        exact ih rest' (by simp at hl; omega) h3
  intro w
  exact key w.length w le_rfl

/-- On well-formed input the supplementary-pair pass leaves no residual
    match: every kept `U+DB40` keeps its original (out-of-range) low
    surrogate right behind it. -/
theorem supp_nsp : ∀ {w : List Nat}, wfb w = true →
    List.Chain' noSuppAdj (supp w) := by
  have key : ∀ n (w : List Nat), w.length ≤ n → wfb w = true →
      List.Chain' noSuppAdj (supp w) := by
    intro n
    induction n with
    | zero =>
      intro w hl _
      have hw : w = [] := List.eq_nil_of_length_eq_zero (Nat.le_zero.mp hl)
      subst hw
      simp [supp]
    | succ n ih =>
      intro w hl hw
      rcases w with _ | ⟨u, rest⟩
      · simp [supp]
      rcases wfb_cases hw with ⟨h1, h2, h3⟩ | ⟨l, rest', rfl, hh, hlo, h3⟩
      · rw [supp_cons_of_ne (not_isHigh_ne_DB40 h1)]
        refine (ih rest (by simp at hl; omega) h3).cons' ?_
        intro b _
        exact noSuppAdj_of_ne (not_isHigh_ne_DB40 h1)
      · by_cases hdb : (u = 0xDB40 && suppLow l) = true
        · rw [supp, if_pos hdb]
          exact ih rest' (by simp at hl; omega) h3
        · rw [supp, if_neg hdb]
          have hl40 : l ≠ 0xDB40 := isLow_ne_DB40 hlo
          rw [supp_cons_of_ne hl40]
          have hch : List.Chain' noSuppAdj (l :: supp rest') := by
            refine (ih rest' (by simp at hl; omega) h3).cons' ?_
            intro b _
            exact noSuppAdj_of_ne hl40
          refine hch.cons' ?_
          intro b hb
          simp at hb
          subst hb
          intro hcon
          exact hdb (by simp [hcon.1, hcon.2])
  intro w
  exact key w.length w le_rfl

/-! ## Registry and surrogate facts -/

theorem getCharInfo_mem {u : Nat} {i : CharInfo} (h : getCharInfo u = some i) :
    (u, i) ∈ INVISIBLE_CHARS := by
  unfold getCharInfo at h
  rcases Option.map_eq_some'.mp h with ⟨p, hp, hi⟩
  have hmem := List.mem_of_find?_eq_some hp
  have hkey := List.find?_some hp
  rcases p with ⟨k, v⟩
  simp at hkey hi
  subst hkey
  subst hi
  exact hmem

set_option maxRecDepth 40000 in
/-- No registry key is a surrogate code unit. -/
theorem reg_keys_not_surr : ∀ p ∈ INVISIBLE_CHARS, p.1 < 0xD800 ∨ 0xE000 ≤ p.1 := by
  decide

theorem getCharInfo_surr_none {u : Nat} (h1 : 0xD800 ≤ u) (h2 : u ≤ 0xDFFF) :
    getCharInfo u = none := by
  cases hc : getCharInfo u with
  | none => rfl
  | some i =>
    have := reg_keys_not_surr _ (getCharInfo_mem hc)
    simp at this
    omega

theorem strippable_surr {u : Nat} (h1 : 0xD800 ≤ u) (h2 : u ≤ 0xDFFF) :
    strippable u = false := by
  unfold strippable
  rw [getCharInfo_surr_none h1 h2]
  simp [controlRange]
  omega

theorem strippable_surr' {u : Nat} (h : isHigh u = true ∨ isLow u = true) :
    strippable u = false := by
  rcases h with h | h <;> simp [isHigh, isLow] at h <;>
    exact strippable_surr (by omega) (by omega)

theorem noSuppAdj_nl (a : Nat) : noSuppAdj a 0x0A := by
  rintro ⟨-, h⟩
  simp [suppLow] at h

theorem composePair_nl (a : Nat) : noCompAdj a 0x0A := by
  unfold noCompAdj composePair
  simp

/-! ## Normal-form preservation by the whitespace passes -/

theorem NFfixed_trail {v : List Nat} (h : NFfixed v) : NFfixed (trail v) := by
  refine ⟨fun hm => h.1 ((trail_sublist v).mem hm), ?_⟩
  exact (trailGo_chain composePair_nl v [] (by simpa using h.2)).1

theorem NFfixed_collapse {v : List Nat} (h : NFfixed v) : NFfixed (collapse v) :=
  ⟨fun hm => h.1 ((collapse_sublist v).mem hm), collapse_chain h.2⟩

theorem nsp_trail {v : List Nat} (h : List.Chain' noSuppAdj v) :
    List.Chain' noSuppAdj (trail v) :=
  (trailGo_chain noSuppAdj_nl v [] (by simpa using h)).1

/-! ## Elements of clean output are never strippable -/

theorem clean_all_ok (opts : CleanOptions) (text : List Nat) :
    ∀ u ∈ clean opts text, strippable u = false := by
  intro u hu
  simp only [clean] at hu
  have hu4 := (trail_sublist _).mem ((collapse_sublist _).mem hu)
  have hok_supp : ∀ v ∈ supp (((if opts.stripHTML then decodeEntities text
      else text)).filter (fun w => !strippable w)), strippable v = false := by
    intro v hv
    have := List.of_mem_filter (mem_supp hv)
    simpa using this
  have hok_r3 : ∀ v ∈ (if opts.normalize then
      nfc (supp (((if opts.stripHTML then decodeEntities text
        else text)).filter (fun w => !strippable w)))
      else supp (((if opts.stripHTML then decodeEntities text
        else text)).filter (fun w => !strippable w))), strippable v = false := by
    intro v hv
    split at hv
    · rcases mem_nfc hv with hm | hm
      · exact hok_supp v hm
      · obtain ⟨c1, c2, c3, c4, c5, c6, c7⟩ := strippable_nfc_consts
        simp at hm
        rcases hm with rfl | rfl | rfl | rfl | rfl | rfl | rfl <;> assumption
    · exact hok_supp v hv
  split at hu4
  · rcases List.mem_map.mp hu4 with ⟨v, hv, hvu⟩
    rcases hgFix_cases _ v with hc | ⟨r, hr, hc⟩
    · rw [← hvu, hc]
      exact hok_r3 v hv
    · rw [← hvu, hc]
      exact (hg_values_ok _ (homoglyphRepl_mem hr)).2.2.2
  · exact hok_r3 u hu4

/-- A string that is simultaneously a fixed point of every enabled pass is a
    fixed point of `clean`. -/
theorem clean_fixed (opts : CleanOptions) (z : List Nat)
    (hH : opts.stripHTML = false)
    (hok : ∀ u ∈ z, strippable u = false)
    (hnsp : List.Chain' noSuppAdj z)
    (hN : opts.normalize = true → nfc z = z)
    (hHg : opts.fixHomoglyphs = true → ∀ c : List Nat, z.map (hgFix c) = z)
    (hTC : collapse (trail z) = z) :
    clean opts z = z := by
  simp only [clean, hH, Bool.false_eq_true, if_false]
  have h1 : z.filter (fun u => !strippable u) = z := by
    refine filter_eq_self_of ?_
    intro u hu
    simp [hok u hu]
  rw [h1, supp_eq_self hnsp]
  by_cases hn : opts.normalize = true
  · rw [if_pos hn, hN hn]
    by_cases hg : opts.fixHomoglyphs = true
    · rw [if_pos hg, hHg hg]
      exact hTC
    · rw [if_neg hg]
      exact hTC
  · rw [if_neg hn]
    by_cases hg : opts.fixHomoglyphs = true
    · rw [if_pos hg, hHg hg]
      exact hTC
    · rw [if_neg hg]
      exact hTC

theorem clean_unfold (opts : CleanOptions) (text : List Nat)
    (hH : opts.stripHTML = false) :
    clean opts text =
      collapse (trail (
        if opts.fixHomoglyphs then
          (if opts.normalize then nfc (supp (text.filter (fun u => !strippable u)))
           else supp (text.filter (fun u => !strippable u))).map
            (hgFix (if opts.normalize then
              nfc (supp (text.filter (fun u => !strippable u)))
              else supp (text.filter (fun u => !strippable u))))
        else
          (if opts.normalize then nfc (supp (text.filter (fun u => !strippable u)))
           else supp (text.filter (fun u => !strippable u))))) := by
  simp only [clean, hH, Bool.false_eq_true, if_false]

/-- Main idempotence lemma for `clean` on well-formed input, with HTML
    stripping off and not both normalization and homoglyph folding on. -/
theorem clean_idem_aux (opts : CleanOptions) (text : List Nat)
    (hwf : wfb text = true) (hH : opts.stripHTML = false)
    (hNH : ¬(opts.normalize = true ∧ opts.fixHomoglyphs = true)) :
    clean opts (clean opts text) = clean opts text := by
  have hok := clean_all_ok opts text
  have hwfA : wfb (text.filter (fun u => !strippable u)) = true :=
    wfb_filter (fun u hu => by simp [strippable_surr' hu]) hwf
  have hnspS : List.Chain' noSuppAdj (supp (text.filter (fun u => !strippable u))) :=
    supp_nsp hwfA
  have hnsp3 : List.Chain' noSuppAdj
      (if opts.normalize then nfc (supp (text.filter (fun u => !strippable u)))
       else supp (text.filter (fun u => !strippable u))) := by
    split
    · exact nfc_nsp hnspS
    · exact hnspS
  have hnsp4 : List.Chain' noSuppAdj
      (if opts.fixHomoglyphs then
        (if opts.normalize then nfc (supp (text.filter (fun u => !strippable u)))
         else supp (text.filter (fun u => !strippable u))).map
          (hgFix (if opts.normalize then
            nfc (supp (text.filter (fun u => !strippable u)))
            else supp (text.filter (fun u => !strippable u))))
       else
        (if opts.normalize then nfc (supp (text.filter (fun u => !strippable u)))
         else supp (text.filter (fun u => !strippable u)))) := by
    split
    · exact hgFix_nsp hnsp3
    · exact hnsp3
  rw [clean_unfold opts text hH]
  refine clean_fixed opts _ hH ?_ ?_ ?_ ?_ ?_
  · rw [← clean_unfold opts text hH]
    exact hok
  · exact collapse_chain (nsp_trail hnsp4)
  · intro hn
    have hg : opts.fixHomoglyphs = false := by
      rcases hgc : opts.fixHomoglyphs with _ | _
      · rfl
      · exact absurd ⟨hn, hgc⟩ hNH
    rw [hg]
    simp only [Bool.false_eq_true, if_false, hn, if_true]
    refine nfc_eq_self (NFfixed_collapse (NFfixed_trail (NFfixed_nfc _)))
  · intro hg c
    rw [hg]
    simp only [if_true]
    refine map_eq_self_of ?_
    intro u hu
    have hu4 := (trail_sublist _).mem ((collapse_sublist _).mem hu)
    simp only [if_true] at hu4
    rcases List.mem_map.mp hu4 with ⟨v, hv, hvu⟩
    rw [← hvu]
    exact hgFix_idem c _ v
  · exact trail_collapse_idem _

/-! ## Claim C1 -/

set_option maxHeartbeats 1000000 in
/-- C1 (counterexample): `clean` applied twice does not always equal `clean`
    applied once with options held constant.  Three concrete failures:
    (1) with `stripHTML`, entity decoding manufactures `<a>` which the second
    application's tag stripper removes; (2) with `normalize` and
    `fixHomoglyphs`, folding Cyrillic Е to Latin E creates `E`+U+0301 after
    normalization already ran, and the second application composes it to
    U+00C9; (3) removing a supplementary pair can juxtapose a new pair
    (ill-formed input), which only the second application removes. -/
theorem clean_not_idempotent_cex :
    clean { normalize := false, stripHTML := true }
        (clean { normalize := false, stripHTML := true } (lit "&lt;a&gt;")) ≠
      clean { normalize := false, stripHTML := true } (lit "&lt;a&gt;") ∧
    clean { normalize := true, fixHomoglyphs := true }
        (clean { normalize := true, fixHomoglyphs := true } [0x415, 0x301]) ≠
      clean { normalize := true, fixHomoglyphs := true } [0x415, 0x301] ∧
    clean {} (clean {} [0xDB40, 0xDB40, 0xDC01, 0xDC01]) ≠
      clean {} [0xDB40, 0xDB40, 0xDC01, 0xDC01] := by
  have e1 : clean { normalize := false, stripHTML := true } (lit "&lt;a&gt;") =
      [0x3C, 0x61, 0x3E] := by
    simp [clean, decodeEntities, stripTags, replaceCI, ciPref, lowerU, lit, supp,
      trail, trailGo, collapse, strippable, getCharInfo, INVISIBLE_CHARS,
      List.find?, controlRange, isSpTab, dropUntilGt, suppLow]
  have e2 : clean { normalize := false, stripHTML := true } [0x3C, 0x61, 0x3E] =
      [] := by
    simp [clean, decodeEntities, stripTags, replaceCI, ciPref, lowerU, lit, supp,
      trail, trailGo, collapse, strippable, getCharInfo, INVISIBLE_CHARS,
      List.find?, controlRange, isSpTab, dropUntilGt, suppLow]
  have e3 : clean { normalize := true, fixHomoglyphs := true } [0x415, 0x301] =
      [0x45, 0x301] := by
    simp [clean, supp, nfc, reorder, decompose, nfcDecomp, ccc, sortCC, insCC,
      comp, composePair, hgFix, homoglyphRepl, HOMOGLYPHS, List.find?,
      isExpectedChar, trail, trailGo, collapse, strippable, getCharInfo,
      INVISIBLE_CHARS, controlRange, isSpTab, suppLow]
  have e4 : clean { normalize := true, fixHomoglyphs := true } [0x45, 0x301] =
      [0xC9] := by
    simp [clean, supp, nfc, reorder, decompose, nfcDecomp, ccc, sortCC, insCC,
      comp, composePair, hgFix, homoglyphRepl, HOMOGLYPHS, List.find?,
      isExpectedChar, trail, trailGo, collapse, strippable, getCharInfo,
      INVISIBLE_CHARS, controlRange, isSpTab, suppLow]
  have e5 : clean {} [0xDB40, 0xDB40, 0xDC01, 0xDC01] = [0xDB40, 0xDC01] := by
    simp [clean, supp, nfc, reorder, decompose, nfcDecomp, ccc, sortCC, insCC,
      comp, composePair, trail, trailGo, collapse, strippable, getCharInfo,
      INVISIBLE_CHARS, List.find?, controlRange, isSpTab, suppLow]
  have e6 : clean {} [0xDB40, 0xDC01] = [] := by
    simp [clean, supp, nfc, reorder, decompose, nfcDecomp, ccc, sortCC, insCC,
      comp, composePair, trail, trailGo, collapse, strippable, getCharInfo,
      INVISIBLE_CHARS, List.find?, controlRange, isSpTab, suppLow]
  refine ⟨?_, ?_, ?_⟩
  · rw [e1, e2]
    simp
  · rw [e3, e4]
    simp
  · rw [e5, e6]
    simp

/-- C1 (amended): with options held constant, `clean` is idempotent provided
    the input is well-formed UTF-16, `stripHTML` is off, and `normalize` and
    `fixHomoglyphs` are not both on. -/
theorem clean_idempotent_on_wellformed (opts : CleanOptions) (text : List Nat)
    (hwf : wfb text = true) (hH : opts.stripHTML = false)
    (hNH : ¬(opts.normalize = true ∧ opts.fixHomoglyphs = true)) :
    clean opts (clean opts text) = clean opts text :=
  clean_idem_aux opts text hwf hH hNH

/-- C1 (witness): the amended idempotence theorem applied at a concrete
    input with the default options. -/
theorem clean_idempotent_on_wellformed_witness :
    wfb (lit "a  b") = true ∧ ({} : CleanOptions).stripHTML = false ∧
    clean {} (clean {} (lit "a  b")) = clean {} (lit "a  b") :=
  ⟨by decide, rfl,
    clean_idempotent_on_wellformed {} (lit "a  b") (by decide) rfl (by simp)⟩

/-! ## Length bounds (claim C3) -/

theorem stripTags_cons_some {rest rest' : List Nat}
    (h : dropUntilGt rest = some rest') :
    stripTags (0x3C :: rest) = stripTags rest' := by
  simp only [stripTags, if_pos]
  split
  · rename_i x hx
    rw [h] at hx
    injection hx with hx
    rw [hx]
  · rename_i hx
    rw [h] at hx
    cases hx

theorem stripTags_cons_none {rest : List Nat} (h : dropUntilGt rest = none) :
    stripTags (0x3C :: rest) = 0x3C :: rest := by
  simp only [stripTags, if_pos]
  split
  · rename_i x hx
    rw [h] at hx
    cases hx
  · rfl

theorem stripTags_cons_ne {u : Nat} {rest : List Nat} (h : ¬u = 0x3C) :
    stripTags (u :: rest) = u :: stripTags rest := by
  simp [stripTags, h]

theorem stripTags_length : ∀ w : List Nat, (stripTags w).length ≤ w.length := by
  intro w
  induction w using stripTags.induct with
  | case1 => simp [stripTags]
  | case2 rest rest' h ih =>
    rw [stripTags_cons_some h]
    have := dropUntilGt_length rest rest' h
    simp
    omega
  | case3 rest h =>
    rw [stripTags_cons_none h]
  | case4 u rest h ih =>
    rw [stripTags_cons_ne h]
    simpa using ih

theorem ciPref_length : ∀ {pats w : List Nat}, ciPref pats w = true →
    pats.length ≤ w.length := by
  intro pats
  induction pats with
  | nil => intro w _; simp
  | cons p ps ih =>
    intro w h
    cases w with
    | nil => simp [ciPref] at h
    | cons c cs =>
      simp only [ciPref, Bool.and_eq_true] at h
      have := ih h.2
      simp
      omega

theorem replaceCI_length {p : Nat} {ps rep : List Nat}
    (hrep : rep.length ≤ ps.length + 1) :
    ∀ w : List Nat, (replaceCI p ps rep w).length ≤ w.length := by
  intro w
  induction w using replaceCI.induct p ps rep with
  | case1 => simp [replaceCI]
  | case2 u rest h ih =>
    rw [replaceCI, if_pos h]
    have hlen := ciPref_length h
    simp only [List.length_append, List.length_drop, List.length_cons] at *
    omega
  | case3 u rest h ih =>
    rw [replaceCI, if_neg h]
    simpa using ih

theorem decodeEntities_length (w : List Nat) :
    (decodeEntities w).length ≤ w.length := by
  unfold decodeEntities
  refine le_trans (replaceCI_length (by simp [lit]) _) ?_
  refine le_trans (replaceCI_length (by simp [lit]) _) ?_
  refine le_trans (replaceCI_length (by simp [lit]) _) ?_
  refine le_trans (replaceCI_length (by simp [lit]) _) ?_
  refine le_trans (replaceCI_length (by simp [lit]) _) ?_
  refine le_trans (replaceCI_length (by simp [lit]) _) ?_
  exact stripTags_length w

/-- C3 (counterexample): `clean` output can exceed the input in length:
    NFC canonical decomposition of U+0344 (combining Greek dialytika tonos)
    yields the two-character sequence U+0308 U+0301, which is excluded from
    recomposition. -/
theorem clean_length_cex :
    ¬((clean {} [0x344]).length ≤ ([0x344] : List Nat).length) := by
  have e : clean {} [0x344] = [0x308, 0x301] := by
    simp [clean, supp, nfc, reorder, decompose, nfcDecomp, ccc, sortCC, insCC,
      comp, composePair, trail, trailGo, collapse, strippable, getCharInfo,
      INVISIBLE_CHARS, List.find?, controlRange, isSpTab, suppLow]
  rw [e]
  simp

/-- C3 (amended): when `normalize` is off, no cleaning step adds characters,
    so the output never exceeds the input in UTF-16 length.  (With
    `normalize` on, NFC decomposition may lengthen the text.) -/
theorem clean_length_le (opts : CleanOptions) (text : List Nat)
    (hn : opts.normalize = false) :
    (clean opts text).length ≤ text.length := by
  simp only [clean, hn, Bool.false_eq_true, if_false]
  refine le_trans (collapse_sublist _).length_le ?_
  refine le_trans (trail_sublist _).length_le ?_
  have base : (supp ((if opts.stripHTML then decodeEntities text
      else text).filter (fun u => !strippable u))).length ≤ text.length := by
    refine le_trans (supp_sublist _).length_le ?_
    refine le_trans (List.length_filter_le _ _) ?_
    split
    · exact decodeEntities_length text
    · exact le_rfl
  split
  · rw [List.length_map]
    exact base
  · exact base

/-- C3 (witness): the amended length bound applied at a concrete input. -/
theorem clean_length_le_witness :
    ({ normalize := false } : CleanOptions).normalize = false ∧
    (clean { normalize := false } (lit "a  b")).length ≤ (lit "a  b").length :=
  ⟨rfl, clean_length_le { normalize := false } (lit "a  b") rfl⟩

/-! ## Newline preservation (claim C10) -/

theorem count_nl_supp : ∀ w : List Nat, (supp w).count 0x0A = w.count 0x0A := by
  intro w
  induction w using supp.induct with
  | case1 => rfl
  | case2 u => rfl
  | case3 u l rest hc ih =>
    rw [supp, if_pos hc]
    simp only [Bool.and_eq_true, decide_eq_true_eq] at hc
    rw [List.count_cons, List.count_cons]
    have h1 : ¬(l == 0x0A) := by
      have := hc.2
      simp [suppLow] at this
      simp
      omega
    have h2 : ¬(u == 0x0A) := by simp [hc.1]
    simp [h1, h2, ih]
  | case4 u l rest hc ih =>
    rw [supp, if_neg hc]
    rw [List.count_cons, List.count_cons, ih, List.count_cons]

theorem count_nl_nfcDecomp (u : Nat) :
    (nfcDecomp u).count 0x0A = ([u] : List Nat).count 0x0A := by
  unfold nfcDecomp
  split
  · rename_i h; subst h; rfl
  · split
    · rename_i h; subst h; rfl
    · split
      · rename_i h; subst h; rfl
      · rfl

theorem count_nl_decompose (w : List Nat) :
    (decompose w).count 0x0A = w.count 0x0A := by
  induction w with
  | nil => rfl
  | cons u rest ih =>
    rw [decompose_cons, List.count_append, ih, count_nl_nfcDecomp]
    rw [List.count_cons]
    simp [List.count_cons, List.count_nil]
    omega

theorem count_nl_comp : ∀ v : List Nat, (comp v).count 0x0A = v.count 0x0A := by
  intro v
  induction v using comp.induct with
  | case1 => simp [comp]
  | case2 x => simp [comp]
  | case3 x y t z hz ih =>
    simp only [comp.eq_3, hz]
    rw [ih]
    have hxy : x ≠ 0x0A ∧ y ≠ 0x0A := by
      unfold composePair at hz
      split at hz
      · rename_i h; simp at h; omega
      · split at hz
        · rename_i h; simp at h; omega
        · cases hz
    have hz' : z ≠ 0x0A := by
      rcases composePair_some hz with rfl | rfl <;> norm_num
    simp [List.count_cons, hxy.1, hxy.2, hz']
  | case4 x y t hz ih =>
    simp only [comp.eq_3, hz]
    simp [List.count_cons, ih]

theorem count_nl_nfc (w : List Nat) : (nfc w).count 0x0A = w.count 0x0A := by
  rw [nfc_eq_comp_decompose, count_nl_comp, count_nl_decompose]

theorem hgFix_nl (ctx : List Nat) (u : Nat) : (hgFix ctx u = 0x0A) ↔ u = 0x0A := by
  constructor
  · intro h
    rcases hgFix_cases ctx u with hc | ⟨r, hr, hc⟩
    · rw [← hc, h]
    · rw [hc] at h
      have := (hg_values_ok _ (homoglyphRepl_mem hr)).1
      omega
  · intro h
    subst h
    have : homoglyphRepl 0x0A = none := by
      cases hr : homoglyphRepl 0x0A with
      | none => rfl
      | some r =>
        have := (hg_keys_range _ (homoglyphRepl_mem hr)).1
        omega
    simp [hgFix, this]

theorem count_nl_map_hgFix (ctx : List Nat) (w : List Nat) :
    (w.map (hgFix ctx)).count 0x0A = w.count 0x0A := by
  induction w with
  | nil => rfl
  | cons u rest ih =>
    rw [List.map_cons, List.count_cons, List.count_cons, ih]
    by_cases hu : u = 0x0A
    · subst hu
      simp [(hgFix_nl ctx 0x0A).mpr rfl]
    · have : hgFix ctx u ≠ 0x0A := fun hc => hu ((hgFix_nl ctx u).mp hc)
      simp [hu, this]

theorem count_nl_dropWhile_sp (rest : List Nat) :
    (rest.dropWhile (· = 0x20)).count 0x0A = rest.count 0x0A := by
  induction rest with
  | nil => rfl
  | cons v t ih =>
    rw [List.dropWhile_cons]
    split
    · rename_i hv
      simp at hv
      rw [ih, List.count_cons]
      simp [hv]
    · rfl

theorem collapse_cons_sp (rest : List Nat) :
    collapse (0x20 :: rest) = 0x20 :: collapse (rest.dropWhile (· = 0x20)) := by
  simp [collapse]

theorem collapse_cons_ne {u : Nat} (h : ¬u = 0x20) (rest : List Nat) :
    collapse (u :: rest) = u :: collapse rest := by
  simp [collapse, h]

theorem count_nl_collapse : ∀ v : List Nat, (collapse v).count 0x0A = v.count 0x0A := by
  intro v
  induction v using collapse.induct with
  | case1 => simp [collapse]
  | case2 rest ih =>
    rw [collapse_cons_sp]
    rw [List.count_cons, List.count_cons, ih, count_nl_dropWhile_sp]
  | case3 u rest h ih =>
    rw [collapse_cons_ne h]
    rw [List.count_cons, List.count_cons, ih]

theorem count_nl_trailGo : ∀ (w pend : List Nat), (∀ x ∈ pend, isSpTab x = true) →
    (trailGo pend w).count 0x0A = w.count 0x0A := by
  intro w
  induction w with
  | nil => intro pend _; simp [trailGo]
  | cons u rest ih =>
    intro pend hall
    have hpend0 : pend.count 0x0A = 0 := by
      rw [List.count_eq_zero]
      intro hm
      exact absurd rfl (isSpTab_ne_nl (hall _ hm))
    simp only [trailGo]
    split
    · rename_i h0A
      subst h0A
      rw [List.count_cons, List.count_cons, ih [] (by simp)]
    · split
      · rename_i hsp
        rw [ih (pend ++ [u]) (by
          intro x hx
          rcases List.mem_append.mp hx with hx' | hx'
          · exact hall x hx'
          · simp at hx'; subst hx'; assumption)]
        rw [List.count_cons]
        simp [isSpTab_ne_nl (by assumption : isSpTab u = true)]
      · rename_i hnl hsp
        rw [List.count_append, hpend0, List.count_cons, List.count_cons,
            ih [] (by simp)]
        simp

theorem count_nl_trail (w : List Nat) : (trail w).count 0x0A = w.count 0x0A :=
  count_nl_trailGo w [] (by simp)

/-- C10: with `stripHTML` off, `clean` preserves the number of line feeds:
    no pass removes or introduces U+000A. -/
theorem clean_preserves_newlines (opts : CleanOptions) (text : List Nat)
    (hH : opts.stripHTML = false) :
    (clean opts text).count 0x0A = text.count 0x0A := by
  simp only [clean, hH, Bool.false_eq_true, if_false]
  rw [count_nl_collapse, count_nl_trail]
  have hfil : (text.filter (fun u => !strippable u)).count 0x0A = text.count 0x0A := by
    refine List.count_filter ?_
    simp [strippable, getCharInfo, INVISIBLE_CHARS, List.find?, controlRange]
  have hbase : (if opts.normalize then
      nfc (supp (text.filter (fun u => !strippable u)))
      else supp (text.filter (fun u => !strippable u))).count 0x0A =
      text.count 0x0A := by
    split
    · rw [count_nl_nfc, count_nl_supp, hfil]
    · rw [count_nl_supp, hfil]
  split
  · rw [count_nl_map_hgFix, hbase]
  · exact hbase

/-- C10 (witness): newline preservation at a concrete input. -/
theorem clean_preserves_newlines_witness :
    ({} : CleanOptions).stripHTML = false ∧
    (clean {} (lit "a\nb \n")).count 0x0A = (lit "a\nb \n").count 0x0A :=
  ⟨rfl, clean_preserves_newlines {} (lit "a\nb \n") rfl⟩

/-! ## Detector (`detect`) -/

/-- `'U+' + code.toString(16).toUpperCase().padStart(4, '0')`. -/
def codeLabel (u : Nat) : String :=
  let s := (Nat.toDigits 16 u).map Char.toUpper
  "U+" ++ String.mk (List.replicate (4 - s.length) '0' ++ s)

/-- The per-unit decision of `detect`'s loop: registry hit filtered by the
    formatting rule, else the generic control-range test.  (`revealHTML`
    makes the identical decision for its annotation test.) -/
def detCounted (includeFormatting : Bool) (u : Nat) : Bool :=
  match getCharInfo u with
  | some info => if info.category = Cat.formatting then includeFormatting else true
  | none => controlRange u

/-- The synthesized descriptor for an unnamed control character. -/
def controlInfo (u : Nat) : CharInfo :=
  ⟨"Control Character", codeLabel u, Cat.control⟩

/-- The descriptor recorded by `detect` for a counted unit. -/
def detInfo (u : Nat) : CharInfo :=
  match getCharInfo u with
  | some i => i
  | none => controlInfo u

/-- `{ info, count, positions }` of a `detect` map entry. -/
structure DetectEntry where
  info : CharInfo
  count : Nat
  positions : List Nat
deriving DecidableEq

/-- `{ total, chars }` of a `detect` result; `chars` is the entry list in
    first-seen order (JS `Map` preserves insertion order). -/
structure DetectResult where
  total : Nat
  chars : List (Nat × DetectEntry)
deriving DecidableEq

/-- Record one occurrence of `ch` at position `i` in the entry list. -/
def bumpEntry : List (Nat × DetectEntry) → Nat → CharInfo → Nat → List (Nat × DetectEntry)
  | [], ch, info, i => [(ch, ⟨info, 1, [i]⟩)]
  | (k, e) :: rest, ch, info, i =>
    if k = ch then (k, ⟨e.info, e.count + 1, e.positions ++ [i]⟩) :: rest
    else (k, e) :: bumpEntry rest ch info i

def detectGo (fmt : Bool) : Nat → List Nat → Nat × List (Nat × DetectEntry) →
    Nat × List (Nat × DetectEntry)
  | _, [], acc => acc
  | i, ch :: rest, (total, chars) =>
    if detCounted fmt ch then
      detectGo fmt (i + 1) rest (total + 1, bumpEntry chars ch (detInfo ch) i)
    else
      detectGo fmt (i + 1) rest (total, chars)

/-- `detect(text, { includeFormatting })`: one pass over the code units,
    counting registry characters (subject to the formatting filter) and
    generic C0/C1 controls, with per-character counts and positions. -/
def detect (includeFormatting : Bool) (text : List Nat) : DetectResult :=
  let acc := detectGo includeFormatting 0 text (0, [])
  ⟨acc.1, acc.2⟩

theorem detectGo_total (fmt : Bool) : ∀ (w : List Nat) (i total : Nat)
    (chars : List (Nat × DetectEntry)),
    (detectGo fmt i w (total, chars)).1 = total + w.countP (detCounted fmt) := by
  intro w
  induction w with
  | nil => intro i total chars; simp [detectGo]
  | cons ch rest ih =>
    intro i total chars
    rw [detectGo]
    split
    · rename_i h
      rw [ih, List.countP_cons]
      simp [h]
      omega
    · rename_i h
      rw [ih, List.countP_cons]
      simp [h]

theorem detect_total (fmt : Bool) (text : List Nat) :
    (detect fmt text).total = text.countP (detCounted fmt) := by
  unfold detect
  simp [detectGo_total]

theorem detCounted_strippable {u : Nat} (h : detCounted false u = true) :
    strippable u = true := by
  unfold detCounted at h
  unfold strippable
  cases hc : getCharInfo u with
  | none =>
    rw [hc] at h
    simp at h
    simp [h]
  | some i =>
    rw [hc] at h
    simp at h
    simp [h]

/-! ## Claim C2 -/

/-- C2: every unit counted by `detect(text, {includeFormatting:false})` —
    a non-formatting registry character or a generic C0/C1 control — is
    absent from `clean(text)` under the default options. -/
theorem detect_clean_agree (text : List Nat) (u : Nat)
    (hc : detCounted false u = true) (_hm : u ∈ text) :
    u ∉ clean {} text := by
  intro hmem
  have hok := clean_all_ok {} text u hmem
  rw [detCounted_strippable hc] at hok
  cases hok

/-- C2 (witness): applied to `"a​b"` and the zero-width space. -/
theorem detect_clean_agree_witness :
    detCounted false 0x200B = true ∧ 0x200B ∈ ([0x61, 0x200B, 0x62] : List Nat) ∧
    0x200B ∉ clean {} [0x61, 0x200B, 0x62] :=
  ⟨by decide, by decide,
    detect_clean_agree [0x61, 0x200B, 0x62] 0x200B (by decide) (by decide)⟩

/-! ## Claim C5 -/

set_option maxRecDepth 40000 in
/-- C5 (counterexample): `detect` does not record supplementary-plane Tag
    characters: the text consisting of U+E0001 (the surrogate pair
    U+DB40 U+DC01) yields total 0 even with `includeFormatting` —
    `detect` never consults `SUPPLEMENTARY_REGEX`. -/
theorem detect_misses_tag_chars_cex :
    (detect false [0xDB40, 0xDC01]).total = 0 ∧
    (detect true [0xDB40, 0xDC01]).total = 0 := by
  constructor <;> decide

/-- C5 (amended): `detect` records nothing for any text made of surrogate
    code units — the supplementary-plane surrogate-pair pattern is used only
    by `clean`, which does remove the Tag character U+E0001. -/
theorem detect_surrogates_uncounted :
    (∀ (fmt : Bool) (text : List Nat),
      (∀ u ∈ text, 0xD800 ≤ u ∧ u ≤ 0xDFFF) → (detect fmt text).total = 0) ∧
    clean {} [0xDB40, 0xDC01] = [] := by
  constructor
  · intro fmt text hall
    rw [detect_total]
    rw [List.countP_eq_zero]
    intro u hu
    have hsur := hall u hu
    unfold detCounted
    rw [getCharInfo_surr_none hsur.1 hsur.2]
    simp [controlRange]
    omega
  · simp [clean, supp, nfc, reorder, decompose, nfcDecomp, ccc, sortCC, insCC,
      comp, composePair, trail, trailGo, collapse, strippable, getCharInfo,
      INVISIBLE_CHARS, List.find?, controlRange, isSpTab, suppLow]

/-- C5 (witness): the amended theorem applied to a lone-surrogate text. -/
theorem detect_surrogates_uncounted_witness :
    (detect true [0xD801, 0xDD55]).total = 0 :=
  detect_surrogates_uncounted.1 true [0xD801, 0xDD55] (by decide)

/-! ## Homoglyph scanner (`detectHomoglyphs`) -/

/-- `{ original, code, replacement, count }` of a homoglyph map entry. -/
structure HgEntry where
  original : Nat
  code : String
  replacement : Nat
  count : Nat
deriving DecidableEq

/-- `{ total, chars }` of a `detectHomoglyphs` result. -/
structure HgResult where
  total : Nat
  chars : List (Nat × HgEntry)
deriving DecidableEq

/-- Record one flagged occurrence of `ch` in the entry list. -/
def hgBump : List (Nat × HgEntry) → Nat → Nat → List (Nat × HgEntry)
  | [], ch, repl => [(ch, ⟨ch, codeLabel ch, repl, 1⟩)]
  | (k, e) :: rest, ch, repl =>
    if k = ch then (k, ⟨e.original, e.code, e.replacement, e.count + 1⟩) :: rest
    else (k, e) :: hgBump rest ch repl

def detectHgGo (text : List Nat) : Nat → List Nat → Nat × List (Nat × HgEntry) →
    Nat × List (Nat × HgEntry)
  | _, [], acc => acc
  | i, ch :: rest, (total, chars) =>
    match homoglyphRepl ch with
    | some repl =>
      if isExpectedChar text i ch then detectHgGo text (i + 1) rest (total, chars)
      else detectHgGo text (i + 1) rest (total + 1, hgBump chars ch repl)
    | none => detectHgGo text (i + 1) rest (total, chars)

/-- `detectHomoglyphs(text)`: flags every occurrence of a homoglyph-table
    key unless `isExpectedChar` exempts it. -/
def detectHomoglyphs (text : List Nat) : HgResult :=
  let acc := detectHgGo text 0 text (0, [])
  ⟨acc.1, acc.2⟩

/-- The per-unit flagging decision, evaluated with an empty context and
    position 0: whether a unit is flagged depends only on the unit itself. -/
def hgFlagged (u : Nat) : Bool :=
  (homoglyphRepl u).isSome && !isExpectedChar [] 0 u

theorem isExpectedChar_ctx (t : List Nat) (i : Nat) (ch : Nat) :
    isExpectedChar t i ch = isExpectedChar [] 0 ch := rfl

theorem detectHgGo_total (text : List Nat) : ∀ (w : List Nat) (i total : Nat)
    (chars : List (Nat × HgEntry)),
    (detectHgGo text i w (total, chars)).1 = total + w.countP hgFlagged := by
  intro w
  induction w with
  | nil => intro i total chars; simp [detectHgGo]
  | cons ch rest ih =>
    intro i total chars
    rw [List.countP_cons]
    cases hr : homoglyphRepl ch with
    | none =>
      have hred : detectHgGo text i (ch :: rest) (total, chars) =
          detectHgGo text (i + 1) rest (total, chars) := by
        rw [detectHgGo]
        simp [hr]
      have hfl : hgFlagged ch = false := by simp [hgFlagged, hr]
      rw [hred, ih]
      simp [hfl]
    | some repl =>
      cases he : isExpectedChar text i ch with
      | true =>
        have hred : detectHgGo text i (ch :: rest) (total, chars) =
            detectHgGo text (i + 1) rest (total, chars) := by
          rw [detectHgGo]
          simp [hr, he]
        have hfl : hgFlagged ch = false := by
          simp [hgFlagged, ← isExpectedChar_ctx text i ch, he]
        rw [hred, ih]
        simp [hfl]
      | false =>
        have hred : detectHgGo text i (ch :: rest) (total, chars) =
            detectHgGo text (i + 1) rest (total + 1, hgBump chars ch repl) := by
          rw [detectHgGo]
          simp [hr, he]
        have hfl : hgFlagged ch = true := by
          simp [hgFlagged, hr, ← isExpectedChar_ctx text i ch, he]
        rw [hred, ih]
        simp [hfl]
        omega

theorem hgBump_pres : ∀ (chars : List (Nat × HgEntry)) (ch repl : Nat),
    hgFlagged ch = true → (∀ p ∈ chars, hgFlagged p.1 = true) →
    ∀ p ∈ hgBump chars ch repl, hgFlagged p.1 = true := by
  intro chars
  induction chars with
  | nil =>
    intro ch repl hch _ p hp
    simp [hgBump] at hp
    subst hp
    exact hch
  | cons q rest ih =>
    intro ch repl hch hall p hp
    rcases q with ⟨k, e⟩
    rw [hgBump] at hp
    split at hp
    · rename_i hk
      rcases List.mem_cons.mp hp with rfl | hp'
      · simpa [hk] using hch
      · exact hall p (by simp [hp'])
    · rcases List.mem_cons.mp hp with rfl | hp'
      · exact hall (k, e) (by simp)
      · exact ih ch repl hch (fun q hq => hall q (by simp [hq])) p hp'

theorem detectHgGo_chars (text : List Nat) : ∀ (w : List Nat) (i total : Nat)
    (chars : List (Nat × HgEntry)),
    (∀ p ∈ chars, hgFlagged p.1 = true) →
    ∀ p ∈ (detectHgGo text i w (total, chars)).2, hgFlagged p.1 = true := by
  intro w
  induction w with
  | nil => intro i total chars hall; simpa [detectHgGo] using hall
  | cons ch rest ih =>
    intro i total chars hall
    cases hr : homoglyphRepl ch with
    | none =>
      have hred : detectHgGo text i (ch :: rest) (total, chars) =
          detectHgGo text (i + 1) rest (total, chars) := by
        rw [detectHgGo]
        simp [hr]
      rw [hred]
      exact ih (i + 1) total chars hall
    | some repl =>
      cases he : isExpectedChar text i ch with
      | true =>
        have hred : detectHgGo text i (ch :: rest) (total, chars) =
            detectHgGo text (i + 1) rest (total, chars) := by
          rw [detectHgGo]
          simp [hr, he]
        rw [hred]
        exact ih (i + 1) total chars hall
      | false =>
        have hred : detectHgGo text i (ch :: rest) (total, chars) =
            detectHgGo text (i + 1) rest (total + 1, hgBump chars ch repl) := by
          rw [detectHgGo]
          simp [hr, he]
        rw [hred]
        refine ih (i + 1) (total + 1) _ ?_
        refine hgBump_pres chars ch repl ?_ hall
        simp [hgFlagged, hr, ← isExpectedChar_ctx text i ch, he]

/-! ## Claim C6 -/

/-- C6: `detectHomoglyphs` flags exactly the occurrences of homoglyph-table
    keys outside the blanket exemption set, independently of the
    surrounding text (the flagging predicate is evaluated here with an
    empty context and position 0), and every recorded entry is a
    non-exempted key. -/
theorem detectHomoglyphs_blanket (text : List Nat) :
    (detectHomoglyphs text).total =
      text.countP (fun u => (homoglyphRepl u).isSome && !isExpectedChar [] 0 u) ∧
    ∀ p ∈ (detectHomoglyphs text).chars,
      (homoglyphRepl p.1).isSome = true ∧ isExpectedChar [] 0 p.1 = false := by
  constructor
  · unfold detectHomoglyphs
    simpa [hgFlagged] using detectHgGo_total text text 0 0 []
  · intro p hp
    have := detectHgGo_chars text text 0 0 [] (by simp) p hp
    simp [hgFlagged] at this
    constructor
    · simp [Option.isSome_iff_exists, this.1]
    · simpa using this.2

set_option maxRecDepth 40000 in
/-- C6 (witness): on `"a` + Cyrillic Е + `"`, the single Cyrillic Е is
    flagged and recorded, and it is not exempted. -/
theorem detectHomoglyphs_blanket_witness :
    (detectHomoglyphs [0x61, 0x415]).total = 1 ∧
    (homoglyphRepl 0x415).isSome = true ∧ isExpectedChar [] 0 0x415 = false :=
  ⟨(detectHomoglyphs_blanket [0x61, 0x415]).1.trans (by decide),
   (detectHomoglyphs_blanket [0x61, 0x415]).2
     (0x415, ⟨0x415, "U+0415", 0x45, 1⟩) (by decide)⟩

/-! ## Whitespace anomaly analyzer (`detectWhitespaceAnomalies`) -/

/-- `{ type, count, description }` of a whitespace issue. -/
structure WsIssue where
  type : String
  count : Nat
  description : String
deriving DecidableEq

/-- `{ total, issues }` of a `detectWhitespaceAnomalies` result. -/
structure WsResult where
  total : Nat
  issues : List WsIssue
deriving DecidableEq

/-- Split into lines at U+000A (boundaries of the `m`-flag `$`). -/
def splitNL : List Nat → List (List Nat)
  | [] => [[]]
  | u :: rest =>
    if u = 0x0A then [] :: splitNL rest
    else
      match splitNL rest with
      | [] => [[u]]
      | seg :: segs => (u :: seg) :: segs

/-- Number of matches of `/[ \t]+$/gm`: one per line ending in a space/tab
    run (before its line feed or the end of the string). -/
def trailingCount (text : List Nat) : Nat :=
  (splitNL text).countP (fun seg =>
    match seg.getLast? with
    | some v => isSpTab v
    | none => false)

/-- The JavaScript `\s` class (ECMA-262 WhiteSpace ∪ LineTerminator). -/
def jsWS (u : Nat) : Bool :=
  u = 0x20 || u = 0x09 || u = 0x0A || u = 0x0B || u = 0x0C || u = 0x0D ||
  u = 0x00A0 || u = 0x1680 || (0x2000 ≤ u && u ≤ 0x200A) || u = 0x2028 ||
  u = 0x2029 || u = 0x202F || u = 0x205F || u = 0x3000 || u = 0xFEFF

/-- Number of matches of `/(?<=\S) {2,}(?=\S)/g`: maximal runs of two or
    more plain spaces with a non-whitespace character immediately on both
    sides.  `prevS` records whether the previous unit was `\S`. -/
def cdbl (prevS : Bool) : List Nat → Nat
  | [] => 0
  | u :: rest =>
    if u = 0x20 then
      (if prevS && decide (1 + (rest.takeWhile (· = 0x20)).length ≥ 2) &&
          (match (rest.dropWhile (· = 0x20)).head? with
           | some v => !jsWS v
           | none => false) then 1 else 0) +
      cdbl false (rest.dropWhile (· = 0x20))
    else cdbl (!jsWS u) rest
termination_by w => w.length
decreasing_by
  all_goals simp only [List.length_cons]
  all_goals first
    | omega
    | exact Nat.lt_succ_of_le ((List.dropWhile_sublist _).length_le)

def doubleCount (text : List Nat) : Nat := cdbl false text

/-- `text.includes('\r\n')`. -/
def hasCRLFb : List Nat → Bool
  | [] => false
  | [_] => false
  | a :: b :: rest => (a = 0x0D && b = 0x0A) || hasCRLFb (b :: rest)

def bareLFGo (prevCR : Bool) : List Nat → Bool
  | [] => false
  | u :: rest => (u = 0x0A && !prevCR) || bareLFGo (u = 0x0D) rest

/-- `/(?<!\r)\n/.test(text)`: a line feed not immediately preceded by a
    carriage return. -/
def hasBareLFb (text : List Nat) : Bool := bareLFGo false text

/-- The fourteen `space`-category registry entries, in definition order. -/
def spaceChars : List (Nat × CharInfo) :=
  INVISIBLE_CHARS.filter (fun p => p.2.category = Cat.space)

/-- One issue entry per special space present in the text. -/
def specialSpaceIssues (text : List Nat) : List WsIssue :=
  spaceChars.filterMap (fun p =>
    if text.count p.1 > 0 then
      some ⟨"special-space", text.count p.1, p.2.name ++ " (" ++ p.2.code ++ ")"⟩
    else none)

/-- `detectWhitespaceAnomalies(text)`: four independent checks in fixed
    order, each adding its count to the running total. -/
def detectWhitespaceAnomalies (text : List Nat) : WsResult :=
  let tc := trailingCount text
  let dc := doubleCount text
  let mixed := hasCRLFb text && hasBareLFb text
  let sp := specialSpaceIssues text
  let issues :=
    (if tc > 0 then [⟨"trailing-space", tc, "Trailing spaces on lines"⟩] else []) ++
    (if dc > 0 then [⟨"double-space", dc, "Multiple consecutive spaces"⟩] else []) ++
    (if mixed then [⟨"mixed-endings", 1, "Mixed line endings (CRLF + LF)"⟩] else []) ++
    sp
  ⟨(if tc > 0 then tc else 0) + (if dc > 0 then dc else 0) +
    (if mixed then 1 else 0) + (sp.map (·.count)).sum, issues⟩

/-! ## Claim C9 -/

/-- C9: the mixed-line-endings check contributes exactly one issue of type
    `mixed-endings` with count 1 when the text contains both a CRLF and a
    bare LF, and nothing otherwise; the result's total is always the sum of
    its issues' counts, so the check contributes at most 1 to it. -/
theorem dws_mixed_binary (text : List Nat) :
    (detectWhitespaceAnomalies text).issues.filter
        (fun i => i.type = "mixed-endings") =
      (if hasCRLFb text && hasBareLFb text then
        [⟨"mixed-endings", 1, "Mixed line endings (CRLF + LF)"⟩] else []) ∧
    (detectWhitespaceAnomalies text).total =
      ((detectWhitespaceAnomalies text).issues.map (·.count)).sum := by
  have hsp : ∀ i ∈ specialSpaceIssues text, i.type = "special-space" := by
    intro i hi
    rcases List.mem_filterMap.mp hi with ⟨p, -, hp⟩
    split at hp
    · injection hp with hp
      rw [← hp]
    · cases hp
  constructor
  · simp only [detectWhitespaceAnomalies, List.filter_append]
    have h1 : (if trailingCount text > 0 then
        [(⟨"trailing-space", trailingCount text, "Trailing spaces on lines"⟩ : WsIssue)]
        else []).filter (fun i => i.type = "mixed-endings") = [] := by
      split <;> simp
    have h2 : (if doubleCount text > 0 then
        [(⟨"double-space", doubleCount text, "Multiple consecutive spaces"⟩ : WsIssue)]
        else []).filter (fun i => i.type = "mixed-endings") = [] := by
      split <;> simp
    have h4 : (specialSpaceIssues text).filter
        (fun i => i.type = "mixed-endings") = [] := by
      rw [List.filter_eq_nil_iff]
      intro i hi
      rw [hsp i hi]
      simp
    rw [h1, h2, h4]
    split <;> simp
  · simp only [detectWhitespaceAnomalies, List.map_append, List.sum_append]
    have h1 : ∀ c : Nat, ∀ i : WsIssue, ((if c > 0 then [i] else []).map (·.count)).sum =
        if c > 0 then i.count else 0 := by
      intro c i
      split <;> simp
    have h3 : (List.map (fun x => x.count)
        (if (hasCRLFb text && hasBareLFb text) = true then
          [(⟨"mixed-endings", 1, "Mixed line endings (CRLF + LF)"⟩ : WsIssue)]
         else [])).sum =
        (if (hasCRLFb text && hasBareLFb text) = true then 1 else 0) := by
      split <;> simp
    rw [h1, h1, h3]

/-! ## HTML escaping and the reveal renderer -/

/-- `str.replace(/c/g, rep)` for a single-character pattern: each
    occurrence is rewritten independently. -/
def replaceChar (c : Nat) (rep : List Nat) (w : List Nat) : List Nat :=
  w.flatMap (fun u => if u = c then rep else [u])

/-- `escapeHTML`: the five sequential global replaces of the source, in
    order `&`, `<`, `>`, `"`, `'`. -/
def escapeHTML (s : List Nat) : List Nat :=
  replaceChar 0x27 (lit "&#039;") <|
  replaceChar 0x22 (lit "&quot;") <|
  replaceChar 0x3E (lit "&gt;") <|
  replaceChar 0x3C (lit "&lt;") <|
  replaceChar 0x26 (lit "&amp;") s

/-- Per-character form of `escapeHTML` (the sequential passes coincide with
    it because no replacement string contains a character replaced by a
    later pass). -/
def escChar (u : Nat) : List Nat :=
  if u = 0x26 then lit "&amp;"
  else if u = 0x3C then lit "&lt;"
  else if u = 0x3E then lit "&gt;"
  else if u = 0x22 then lit "&quot;"
  else if u = 0x27 then lit "&#039;"
  else [u]

theorem replaceChar_append (c : Nat) (rep a b : List Nat) :
    replaceChar c rep (a ++ b) = replaceChar c rep a ++ replaceChar c rep b := by
  simp [replaceChar]

theorem escapeHTML_append (a b : List Nat) :
    escapeHTML (a ++ b) = escapeHTML a ++ escapeHTML b := by
  simp [escapeHTML, replaceChar_append]

theorem escapeHTML_singleton (u : Nat) : escapeHTML [u] = escChar u := by
  unfold escChar
  by_cases h26 : u = 0x26
  · subst h26; rfl
  by_cases h3C : u = 0x3C
  · subst h3C; rfl
  by_cases h3E : u = 0x3E
  · subst h3E; rfl
  by_cases h22 : u = 0x22
  · subst h22; rfl
  by_cases h27 : u = 0x27
  · subst h27; rfl
  simp only [if_neg h26, if_neg h3C, if_neg h3E, if_neg h22, if_neg h27]
  simp [escapeHTML, replaceChar, h26, h3C, h3E, h22, h27]

theorem escapeHTML_eq_flatMap (s : List Nat) : escapeHTML s = s.flatMap escChar := by
  induction s with
  | nil => rfl
  | cons u rest ih =>
    have h : (u :: rest) = [u] ++ rest := rfl
    rw [h, escapeHTML_append, escapeHTML_singleton, ih]
    simp

/-- Modelled from the spec: "undoing HTML escaping" — the inverse decoder of
    `escapeHTML`, greedily decoding the five entities it emits; not a
    function of the repository source, introduced only to state the
    reveal round-trip. -/
def unescapeHTML : List Nat → List Nat
  | [] => []
  | u :: rest =>
    if (lit "&amp;").isPrefixOf (u :: rest) then
      0x26 :: unescapeHTML ((u :: rest).drop 5)
    else if (lit "&lt;").isPrefixOf (u :: rest) then
      0x3C :: unescapeHTML ((u :: rest).drop 4)
    else if (lit "&gt;").isPrefixOf (u :: rest) then
      0x3E :: unescapeHTML ((u :: rest).drop 4)
    else if (lit "&quot;").isPrefixOf (u :: rest) then
      0x22 :: unescapeHTML ((u :: rest).drop 6)
    else if (lit "&#039;").isPrefixOf (u :: rest) then
      0x27 :: unescapeHTML ((u :: rest).drop 6)
    else u :: unescapeHTML rest
termination_by w => w.length
decreasing_by
  all_goals simp only [List.length_drop, List.length_cons]
  all_goals omega

theorem unescape_escape (w : List Nat) :
    unescapeHTML (w.flatMap escChar) = w := by
  induction w with
  | nil => simp [unescapeHTML]
  | cons u rest ih =>
    rw [List.flatMap_cons]
    by_cases h26 : u = 0x26
    · subst h26
      simp [unescapeHTML, lit, escChar, List.isPrefixOf, ih]
    by_cases h3C : u = 0x3C
    · subst h3C
      simp [unescapeHTML, lit, escChar, List.isPrefixOf, ih]
    by_cases h3E : u = 0x3E
    · subst h3E
      simp [unescapeHTML, lit, escChar, List.isPrefixOf, ih]
    by_cases h22 : u = 0x22
    · subst h22
      simp [unescapeHTML, lit, escChar, List.isPrefixOf, ih]
    by_cases h27 : u = 0x27
    · subst h27
      simp [unescapeHTML, lit, escChar, List.isPrefixOf, ih]
    · have hne : escChar u = [u] := by
        simp [escChar, h26, h3C, h3E, h22, h27]
      rw [hne]
      simp [unescapeHTML, lit, List.isPrefixOf, h26, Ne.symm h26, ih]

/-- One part of the reveal output: a flushed (already escaped) visible run,
    or one annotation token with its CSS class, character name and code
    label. -/
inductive RevealPart where
  | visible (s : List Nat)
  | annot (cssClass : String) (charName : String) (label : String)
deriving DecidableEq

/-- The name shown by an annotation: the registry name or the synthesized
    control-character name. -/
def revealName (u : Nat) : String :=
  match getCharInfo u with
  | some i => i.name
  | none => "Control Character"

/-- The label shown by an annotation: the registry code or the computed
    `U+` label. -/
def revealLabel (u : Nat) : String :=
  match getCharInfo u with
  | some i => i.code
  | none => codeLabel u

/-- The annotation class: formatting characters get a distinct class. -/
def revealClass (u : Nat) : String :=
  match getCharInfo u with
  | some i => if i.category = Cat.formatting then "char-formatting" else "char-hidden"
  | none => "char-hidden"

/-- The loop of `revealHTML`: walk the units, buffering visible characters
    and flushing the escaped buffer before each annotation.  The decision
    whether to annotate is the same registry/formatting/control branch as
    `detect`'s counting decision (`detCounted`). -/
def revealGo (fmt : Bool) : List Nat → List Nat → List RevealPart
  | [], buf => if buf.isEmpty then [] else [RevealPart.visible (escapeHTML buf)]
  | ch :: rest, buf =>
    if detCounted fmt ch then
      (if buf.isEmpty then [] else [RevealPart.visible (escapeHTML buf)]) ++
      RevealPart.annot (revealClass ch) (revealName ch) (revealLabel ch) ::
        revealGo fmt rest []
    else revealGo fmt rest (buf ++ [ch])

/-- The part sequence of `revealHTML(text, { includeFormatting })`. -/
def revealParts (includeFormatting : Bool) (text : List Nat) : List RevealPart :=
  revealGo includeFormatting text []

/-- Render one part as its HTML span. -/
def renderPart : RevealPart → List Nat
  | RevealPart.visible s =>
    lit "<span class=\"char-visible\">" ++ s ++ lit "</span>"
  | RevealPart.annot cls nm lbl =>
    lit "<span class=\"" ++ lit cls ++ lit "\" title=\"" ++ lit nm ++
    lit " (" ++ lit lbl ++ lit ")\">[" ++ lit lbl ++ lit "]</span>"

/-- `revealHTML(text, options)`: the joined parts. -/
def revealHTML (includeFormatting : Bool) (text : List Nat) : List Nat :=
  ((revealParts includeFormatting text).map renderPart).flatten

/-- Concatenated contents of the visible-run parts (the annotation tokens
    removed). -/
def visibleConcat (ps : List RevealPart) : List Nat :=
  ps.flatMap (fun p =>
    match p with
    | RevealPart.visible s => s
    | RevealPart.annot _ _ _ => [])

theorem revealGo_visible (fmt : Bool) : ∀ (rest buf : List Nat),
    visibleConcat (revealGo fmt rest buf) =
      escapeHTML buf ++ escapeHTML (rest.filter (fun u => !detCounted fmt u)) := by
  intro rest
  induction rest with
  | nil =>
    intro buf
    rw [revealGo]
    by_cases hb : buf.isEmpty
    · rw [if_pos hb]
      rw [List.isEmpty_iff.mp hb]
      simp [visibleConcat, escapeHTML, replaceChar]
    · rw [if_neg hb]
      simp [visibleConcat, escapeHTML, replaceChar]
  | cons ch rest ih =>
    intro buf
    rw [revealGo]
    by_cases hc : detCounted fmt ch
    · rw [if_pos hc, List.filter_cons_of_neg (by simp [hc])]
      by_cases hb : buf.isEmpty
      · rw [if_pos hb, List.isEmpty_iff.mp hb]
        simp only [visibleConcat, List.nil_append, List.flatMap_cons]
        rw [show ((revealGo fmt rest []).flatMap fun p =>
          match p with
          | RevealPart.visible s => s
          | RevealPart.annot _ _ _ => ([] : List Nat)) =
          visibleConcat (revealGo fmt rest []) from rfl]
        rw [ih []]
      · rw [if_neg hb]
        simp only [visibleConcat, List.flatMap_append, List.flatMap_cons]
        rw [show (revealGo fmt rest []).flatMap (fun p =>
          match p with
          | RevealPart.visible s => s
          | RevealPart.annot _ _ _ => ([] : List Nat)) =
          visibleConcat (revealGo fmt rest []) from rfl]
        rw [ih []]
        simp [escapeHTML, replaceChar]
    · rw [if_neg hc, List.filter_cons_of_pos (by simp [hc])]
      rw [ih (buf ++ [ch])]
      rw [escapeHTML_append]
      have : ch :: rest.filter (fun u => !detCounted fmt u) =
          [ch] ++ rest.filter (fun u => !detCounted fmt u) := rfl
      rw [this, escapeHTML_append]
      simp

/-! ## Claim C8 -/

/-- C8: discarding the annotation parts of the reveal output, concatenating
    the visible-run parts, and undoing the HTML escaping reconstructs
    exactly the subsequence of the original text whose characters are not
    annotated, for either value of `includeFormatting`. -/
theorem revealHTML_roundtrip (includeFormatting : Bool) (text : List Nat) :
    unescapeHTML (visibleConcat (revealParts includeFormatting text)) =
      text.filter (fun u => !detCounted includeFormatting u) := by
  unfold revealParts
  rw [revealGo_visible]
  rw [show escapeHTML [] = [] from rfl, List.nil_append]
  rw [escapeHTML_eq_flatMap, unescape_escape]

/-! ## Injector (`inject`) -/

/-- The four insertion-type flags; all default to off. -/
structure InjectTypes where
  zwsp : Bool := false
  zwnj : Bool := false
  bom : Bool := false
  invisSep : Bool := false
deriving DecidableEq

/-- The candidate character pool assembled from the enabled flags, in
    source order. -/
def injectChars (types : InjectTypes) : List Nat :=
  (if types.zwsp then [0x200B] else []) ++
  (if types.zwnj then [0x200C] else []) ++
  (if types.bom then [0xFEFF] else []) ++
  (if types.invisSep then [0x2061, 0x2062, 0x2063, 0x2064] else [])

/-- `text.split(/(\s+)/)`: alternating maximal non-whitespace and
    whitespace runs, separators kept, with empty tokens at whitespace
    boundaries. -/
def splitWS (w : List Nat) : List (List Nat) :=
  let tok := w.takeWhile (fun u => !jsWS u)
  let rest := w.dropWhile (fun u => !jsWS u)
  if h : rest = [] then [tok]
  else
    tok :: rest.takeWhile jsWS :: splitWS (rest.dropWhile jsWS)
termination_by w.length
decreasing_by
  rcases hr : List.dropWhile (fun u => !jsWS u) w with _ | ⟨v, t⟩
  · exact absurd hr h
  · have hv : jsWS v = true := by
      have := @head?_dropWhile_false (fun u => !jsWS u) w v (by rw [hr]; rfl)
      simpa using this
    have h1 : (v :: t).length ≤ w.length := by
      rw [← hr]
      exact (List.dropWhile_sublist _).length_le
    calc (List.dropWhile jsWS (v :: t)).length
        = (List.dropWhile jsWS t).length := by rw [List.dropWhile_cons_of_pos hv]
      _ ≤ t.length := (List.dropWhile_sublist _).length_le
      _ < w.length := by simp at h1; omega

/-- One step of the injection loop for one list element `word` (a token or
    a separator of the split), mirroring the source's in-place updates of
    `result` and `count`; `k` indexes the random oracle, consumed one draw
    per `Math.random()` call in evaluation order. -/
def injStep (chars : List Nat) (rnd : Nat → ℚ) (n i : Nat) (word : List Nat)
    (st : List Nat × Nat × Nat) : List Nat × Nat × Nat :=
  let result := st.1 ++ word
  let count := st.2.1
  let k := st.2.2
  let st1 : List Nat × Nat × Nat :=
    if i < n - 1 then
      if rnd k < 3/5 then
        (result ++ [chars.getD ((rnd (k+1) * chars.length).floor.toNat) 0],
         count + 1, k + 2)
      else (result, count, k + 1)
    else (result, count, k)
  if 4 < word.length then
    if rnd st1.2.2 < 3/10 then
      let pos := ((rnd (st1.2.2 + 1) * ((word.length : ℚ) - 2)).floor.toNat) + 1
      let ch := chars.getD ((rnd (st1.2.2 + 2) * chars.length).floor.toNat) 0
      let at_ := st1.1.length - word.length + pos
      (st1.1.take at_ ++ [ch] ++ st1.1.drop at_, st1.2.1 + 1, st1.2.2 + 3)
    else (st1.1, st1.2.1, st1.2.2 + 1)
  else st1

def injGo (chars : List Nat) (rnd : Nat → ℚ) (n : Nat) :
    Nat → List (List Nat) → List Nat × Nat × Nat → List Nat × Nat × Nat
  | _, [], st => st
  | i, word :: rest, st => injGo chars rnd n (i + 1) rest (injStep chars rnd n i word st)

/-- `inject(text, types)`: with no enabled type the input is returned with
    count 0; otherwise the text is split on whitespace boundaries and
    characters from the pool are interleaved according to the random draws
    (`Math.random()` modelled as an oracle stream `rnd` of rationals in
    `[0,1)`). -/
def inject (types : InjectTypes) (rnd : Nat → ℚ) (text : List Nat) :
    List Nat × Nat :=
  let chars := injectChars types
  if chars = [] then (text, 0)
  else
    let words := splitWS text
    let st := injGo chars rnd words.length 0 words ([], 0, 0)
    (st.1, st.2.1)

/-! ## Claim C7 -/

set_option maxRecDepth 100000 in
/-- C7: the public operations are total functions of their inputs in this
    embedding; evaluated on the spec's edge inputs — the empty string, a
    lone surrogate, a string of only hidden characters — each returns a
    plain result (and `inject` with all type flags off returns the input
    unchanged with count 0 for every text and every random oracle). -/
theorem operations_total_on_edges :
    detect false [] = ⟨0, []⟩ ∧
    (detect true [0xD800]).total = 0 ∧ (detect true [0xD800]).chars = [] ∧
    detectHomoglyphs [] = ⟨0, []⟩ ∧
    detectHomoglyphs [0xD800] = ⟨0, []⟩ ∧
    detectWhitespaceAnomalies [] = ⟨0, []⟩ ∧
    clean {} [] = [] ∧
    clean { stripHTML := true, fixHomoglyphs := true } [0xD800] = [0xD800] ∧
    clean {} [0x200B, 0x200C, 0xFEFF] = [] ∧
    revealHTML true [] = [] ∧
    revealHTML true [0x200B] =
      lit "<span class=\"char-hidden\" title=\"Zero-Width Space (U+200B)\">[U+200B]</span>" ∧
    getCharInfo 0x200B = some ⟨"Zero-Width Space", "U+200B", Cat.zeroWidth⟩ ∧
    getCharInfo 0x61 = none ∧
    ∀ (rnd : Nat → ℚ) (text : List Nat), inject {} rnd text = (text, 0) := by
  refine ⟨by decide, by decide, by decide, by decide, by decide, ?_, ?_, ?_, ?_,
    by decide, by decide, by decide, by decide, ?_⟩
  · have h1 : trailingCount [] = 0 := by decide
    have h2 : doubleCount [] = 0 := by simp [doubleCount, cdbl]
    have h3 : specialSpaceIssues [] = [] := by decide
    simp [detectWhitespaceAnomalies, h1, h2, h3, hasCRLFb, hasBareLFb, bareLFGo]
  · simp [clean, supp, nfc, reorder, decompose, nfcDecomp, ccc, sortCC, insCC,
      comp, composePair, trail, trailGo, collapse, strippable, getCharInfo,
      INVISIBLE_CHARS, List.find?, controlRange, isSpTab, suppLow]
  · simp [clean, decodeEntities, stripTags, replaceCI, ciPref, lowerU, lit,
      dropUntilGt, supp, nfc, reorder, decompose, nfcDecomp, ccc, sortCC, insCC,
      comp, composePair, hgFix, homoglyphRepl, HOMOGLYPHS, List.find?,
      isExpectedChar, trail, trailGo, collapse, strippable, getCharInfo,
      INVISIBLE_CHARS, controlRange, isSpTab, suppLow]
  · simp [clean, supp, nfc, reorder, decompose, nfcDecomp, ccc, sortCC, insCC,
      comp, composePair, trail, trailGo, collapse, strippable, getCharInfo,
      INVISIBLE_CHARS, List.find?, controlRange, isSpTab, suppLow]
  · intro rnd text
    simp [inject, injectChars]

/-! ## Claim C4: well-formedness of the output -/

theorem wfb_append : ∀ {a b : List Nat}, wfb a = true → wfb b = true →
    wfb (a ++ b) = true := by
  have key : ∀ n (a b : List Nat), a.length ≤ n → wfb a = true → wfb b = true →
      wfb (a ++ b) = true := by
    intro n
    induction n with
    | zero =>
      intro a b hl ha hb
      have hn : a = [] := List.eq_nil_of_length_eq_zero (Nat.le_zero.mp hl)
      subst hn
      simpa using hb
    | succ n ih =>
      intro a b hl ha hb
      rcases a with _ | ⟨u, rest⟩
      · simpa using hb
      rcases wfb_cases ha with ⟨h1, h2, h3⟩ | ⟨l, rest', rfl, hh, hlo, h3⟩
      · rw [List.cons_append, wfb_cons_bmp h1 h2]
        exact ih rest b (by simp at hl; omega) h3 hb
      · rw [List.cons_append, List.cons_append, wfb_cons_pair hh hlo]
        exact ih rest' b (by simp at hl; omega) h3 hb
  intro a b
  exact key a.length a b le_rfl

theorem wfb_of_all_bmp {w : List Nat}
    (h : ∀ u ∈ w, isHigh u = false ∧ isLow u = false) : wfb w = true := by
  induction w with
  | nil => rfl
  | cons u rest ih =>
    rw [wfb_cons_bmp (h u (by simp)).1 (h u (by simp)).2]
    exact ih fun v hv => h v (by simp [hv])

theorem wfb_supp : ∀ {w : List Nat}, wfb w = true → wfb (supp w) = true := by
  have key : ∀ n (w : List Nat), w.length ≤ n → wfb w = true →
      wfb (supp w) = true := by
    intro n
    induction n with
    | zero =>
      intro w hl _
      have hn : w = [] := List.eq_nil_of_length_eq_zero (Nat.le_zero.mp hl)
      subst hn
      rfl
    | succ n ih =>
      intro w hl hw
      rcases w with _ | ⟨u, rest⟩
      · rfl
      rcases wfb_cases hw with ⟨h1, h2, h3⟩ | ⟨l, rest', rfl, hh, hlo, h3⟩
      · rw [supp_cons_of_ne (not_isHigh_ne_DB40 h1), wfb_cons_bmp h1 h2]
        exact ih rest (by simp at hl; omega) h3
      · by_cases hdb : (u = 0xDB40 && suppLow l) = true
        · rw [supp, if_pos hdb]
          exact ih rest' (by simp at hl; omega) h3
        · rw [supp, if_neg hdb, supp_cons_of_ne (isLow_ne_DB40 hlo),
              wfb_cons_pair hh hlo]
          exact ih rest' (by simp at hl; omega) h3
  intro w
  exact key w.length w le_rfl

theorem nfcDecomp_surr {u : Nat} (h : 0xD800 ≤ u) : nfcDecomp u = [u] := by
  unfold nfcDecomp
  rw [if_neg (by omega), if_neg (by omega), if_neg (by omega)]

theorem wfb_nfcDecomp {u : Nat} (h1 : isHigh u = false) (h2 : isLow u = false) :
    wfb (nfcDecomp u) = true := by
  unfold nfcDecomp
  split
  · decide
  · split
    · decide
    · split
      · decide
      · exact wfb_of_all_bmp (by intro v hv; simp at hv; subst hv; exact ⟨h1, h2⟩)

theorem wfb_decompose : ∀ {w : List Nat}, wfb w = true →
    wfb (decompose w) = true := by
  have key : ∀ n (w : List Nat), w.length ≤ n → wfb w = true →
      wfb (decompose w) = true := by
    intro n
    induction n with
    | zero =>
      intro w hl _
      have hn : w = [] := List.eq_nil_of_length_eq_zero (Nat.le_zero.mp hl)
      subst hn
      rfl
    | succ n ih =>
      intro w hl hw
      rcases w with _ | ⟨u, rest⟩
      · rfl
      rcases wfb_cases hw with ⟨h1, h2, h3⟩ | ⟨l, rest', rfl, hh, hlo, h3⟩
      · rw [decompose, List.flatMap_cons]
        exact wfb_append (wfb_nfcDecomp h1 h2) (ih rest (by simp at hl; omega) h3)
      · have hu : nfcDecomp u = [u] := nfcDecomp_surr (by simp [isHigh] at hh; omega)
        have hl2 : nfcDecomp l = [l] := nfcDecomp_surr (by simp [isLow] at hlo; omega)
        rw [decompose, List.flatMap_cons, List.flatMap_cons, hu, hl2]
        simp only [List.cons_append, List.nil_append]
        rw [wfb_cons_pair hh hlo]
        exact ih rest' (by simp at hl; omega) h3
  intro w
  exact key w.length w le_rfl

theorem composePair_some_full {x y z : Nat} (h : composePair x y = some z) :
    (x = 0x45 ∧ y = 0x301 ∧ z = 0xC9) ∨ (x = 0x41 ∧ y = 0x300 ∧ z = 0xC0) := by
  unfold composePair at h
  split at h
  · rename_i hc
    injection h with h'
    simp only [Bool.and_eq_true, decide_eq_true_eq] at hc
    exact Or.inl ⟨hc.1, hc.2, h'.symm⟩
  · split at h
    · rename_i hc
      injection h with h'
      simp only [Bool.and_eq_true, decide_eq_true_eq] at hc
      exact Or.inr ⟨hc.1, hc.2, h'.symm⟩
    · exact absurd h (by simp)

theorem composePair_ge_none {x y : Nat} (h : 0xD800 ≤ x) :
    composePair x y = none := by
  unfold composePair
  rw [if_neg, if_neg] <;> intro hc <;> simp at hc <;> omega

theorem wfb_comp : ∀ {w : List Nat}, wfb w = true → wfb (comp w) = true := by
  have key : ∀ n (w : List Nat), w.length ≤ n → wfb w = true →
      wfb (comp w) = true := by
    intro n
    induction n with
    | zero =>
      intro w hl _
      have hn : w = [] := List.eq_nil_of_length_eq_zero (Nat.le_zero.mp hl)
      subst hn
      rw [comp.eq_1]
      rfl
    | succ n ih =>
      intro w hl hw
      rcases w with _ | ⟨x, rest⟩
      · rw [comp.eq_1]
        rfl
      rcases wfb_cases hw with ⟨h1, h2, h3⟩ | ⟨l, rest', rfl, hh, hlo, h3⟩
      · rcases rest with _ | ⟨y, t⟩
        · rw [comp.eq_2]
          exact hw
        cases hz : composePair x y with
        | some z =>
          simp only [comp.eq_3, hz]
          have hbmp : isHigh z = false ∧ isLow z = false ∧ wfb t = true := by
            rcases composePair_some_full hz with ⟨hx, hy, hzv⟩ | ⟨hx, hy, hzv⟩
            · subst hzv; subst hy
              refine ⟨by decide, by decide, ?_⟩
              rwa [wfb_cons_bmp (by decide) (by decide)] at h3
            · subst hzv; subst hy
              refine ⟨by decide, by decide, ?_⟩
              rwa [wfb_cons_bmp (by decide) (by decide)] at h3
          exact ih (z :: t) (by simp at hl ⊢; omega)
            (by rw [wfb_cons_bmp hbmp.1 hbmp.2.1]; exact hbmp.2.2)
        | none =>
          simp only [comp.eq_3, hz]
          rw [wfb_cons_bmp h1 h2]
          exact ih (y :: t) (by simp at hl ⊢; omega) h3
      · have hxge : 0xD800 ≤ x := by simp [isHigh] at hh; omega
        have hlge : 0xD800 ≤ l := by simp [isLow] at hlo; omega
        simp only [comp.eq_3, composePair_ge_none hxge]
        rcases rest' with _ | ⟨r, t'⟩
        · rw [comp.eq_2, wfb_cons_pair hh hlo]
          rfl
        · simp only [comp.eq_3, composePair_ge_none hlge]
          rw [wfb_cons_pair hh hlo]
          exact ih (r :: t') (by simp at hl ⊢; omega) h3
  intro w
  exact key w.length w le_rfl

theorem wfb_nfc {w : List Nat} (h : wfb w = true) : wfb (nfc w) = true := by
  unfold nfc
  rw [reorder_eq_id]
  exact wfb_comp (wfb_decompose h)

set_option maxRecDepth 40000 in
/-- No homoglyph-table key is a surrogate code unit. -/
theorem hg_keys_not_surr : ∀ p ∈ HOMOGLYPHS, p.1 < 0xD800 ∨ 0xE000 ≤ p.1 := by
  decide

theorem hgFix_surr {ctx : List Nat} {u : Nat} (h1 : 0xD800 ≤ u)
    (h2 : u ≤ 0xDFFF) : hgFix ctx u = u := by
  unfold hgFix
  cases hr : homoglyphRepl u with
  | none => rfl
  | some r =>
    have hk := hg_keys_not_surr _ (homoglyphRepl_mem hr)
    exact absurd hk (by simp; omega)

theorem wfb_map_hgFix (ctx : List Nat) : ∀ {w : List Nat}, wfb w = true →
    wfb (w.map (hgFix ctx)) = true := by
  have key : ∀ n (w : List Nat), w.length ≤ n → wfb w = true →
      wfb (w.map (hgFix ctx)) = true := by
    intro n
    induction n with
    | zero =>
      intro w hl _
      have hn : w = [] := List.eq_nil_of_length_eq_zero (Nat.le_zero.mp hl)
      subst hn
      rfl
    | succ n ih =>
      intro w hl hw
      rcases w with _ | ⟨u, rest⟩
      · rfl
      rcases wfb_cases hw with ⟨h1, h2, h3⟩ | ⟨l, rest', rfl, hh, hlo, h3⟩
      · rw [List.map_cons]
        have hb : isHigh (hgFix ctx u) = false ∧ isLow (hgFix ctx u) = false := by
          rcases hgFix_bounds ctx u with he | ⟨hlo', hhi'⟩
          · rw [he]; exact ⟨h1, h2⟩
          · constructor
            · simp [isHigh]; omega
            · simp [isLow]; omega
        rw [wfb_cons_bmp hb.1 hb.2]
        exact ih rest (by simp at hl; omega) h3
      · rw [List.map_cons, List.map_cons,
            hgFix_surr (by simp [isHigh] at hh; omega) (by simp [isHigh] at hh; omega),
            hgFix_surr (by simp [isLow] at hlo; omega) (by simp [isLow] at hlo; omega),
            wfb_cons_pair hh hlo]
        exact ih rest' (by simp at hl; omega) h3
  intro w
  exact key w.length w le_rfl

theorem isSpTab_bmp {x : Nat} (h : isSpTab x = true) :
    isHigh x = false ∧ isLow x = false := by
  simp [isSpTab] at h
  rcases h with h | h <;> subst h <;> exact ⟨by decide, by decide⟩

theorem wfb_trailGo : ∀ {pend w : List Nat},
    (∀ x ∈ pend, isSpTab x = true) → wfb w = true →
    wfb (trailGo pend w) = true := by
  have key : ∀ n (pend w : List Nat), w.length ≤ n →
      (∀ x ∈ pend, isSpTab x = true) → wfb w = true →
      wfb (trailGo pend w) = true := by
    intro n
    induction n with
    | zero =>
      intro pend w hl _ _
      have hn : w = [] := List.eq_nil_of_length_eq_zero (Nat.le_zero.mp hl)
      subst hn
      rfl
    | succ n ih =>
      intro pend w hl hp hw
      rcases w with _ | ⟨u, rest⟩
      · rfl
      rcases wfb_cases hw with ⟨h1, h2, h3⟩ | ⟨l, rest', rfl, hh, hlo, h3⟩
      · by_cases hnl : u = 0x0A
        · subst hnl
          rw [trailGo, if_pos rfl, wfb_cons_bmp (by decide) (by decide)]
          exact ih [] rest (by simp at hl; omega) (by simp) h3
        · by_cases hst : isSpTab u = true
          · rw [trailGo, if_neg hnl, if_pos hst]
            refine ih (pend ++ [u]) rest (by simp at hl; omega) ?_ h3
            intro x hx
            rcases List.mem_append.mp hx with hx | hx
            · exact hp x hx
            · simp at hx; subst hx; exact hst
          · rw [trailGo, if_neg hnl, if_neg hst]
            refine wfb_append (wfb_of_all_bmp (fun x hx => isSpTab_bmp (hp x hx))) ?_
            rw [wfb_cons_bmp h1 h2]
            exact ih [] rest (by simp at hl; omega) (by simp) h3
      · have hunl : ¬u = 0x0A := by simp [isHigh] at hh; omega
        have hust : ¬isSpTab u = true := by
          simp [isHigh] at hh
          simp [isSpTab]
          omega
        have hlnl : ¬l = 0x0A := by simp [isLow] at hlo; omega
        have hlst : ¬isSpTab l = true := by
          simp [isLow] at hlo
          simp [isSpTab]
          omega
        rw [trailGo, if_neg hunl, if_neg hust, trailGo, if_neg hlnl, if_neg hlst]
        simp only [List.nil_append]
        refine wfb_append (wfb_of_all_bmp (fun x hx => isSpTab_bmp (hp x hx))) ?_
        rw [wfb_cons_pair hh hlo]
        exact ih [] rest' (by simp at hl; omega) (by simp) h3
  intro pend w hp hw
  exact key w.length pend w le_rfl hp hw

theorem wfb_trail {w : List Nat} (h : wfb w = true) : wfb (trail w) = true :=
  wfb_trailGo (by simp) h

theorem wfb_dropWhile_sp : ∀ {w : List Nat}, wfb w = true →
    wfb (w.dropWhile (· = 0x20)) = true := by
  intro w
  induction w with
  | nil => intro _; rfl
  | cons u rest ih =>
    intro hw
    by_cases hu : u = 0x20
    · subst hu
      rw [List.dropWhile_cons_of_pos (by simp)]
      exact ih (by rwa [wfb_cons_bmp (by decide) (by decide)] at hw)
    · rw [List.dropWhile_cons_of_neg (by simp [hu])]
      exact hw

theorem wfb_collapse : ∀ {w : List Nat}, wfb w = true →
    wfb (collapse w) = true := by
  have key : ∀ n (w : List Nat), w.length ≤ n → wfb w = true →
      wfb (collapse w) = true := by
    intro n
    induction n with
    | zero =>
      intro w hl _
      have hn : w = [] := List.eq_nil_of_length_eq_zero (Nat.le_zero.mp hl)
      subst hn
      rw [collapse.eq_1]
      rfl
    | succ n ih =>
      intro w hl hw
      rcases w with _ | ⟨u, rest⟩
      · rw [collapse.eq_1]
        rfl
      rcases wfb_cases hw with ⟨h1, h2, h3⟩ | ⟨l, rest', rfl, hh, hlo, h3⟩
      · by_cases hsp : u = 0x20
        · subst hsp
          rw [collapse_cons_sp, wfb_cons_bmp (by decide) (by decide)]
          have hle : (rest.dropWhile (· = 0x20)).length ≤ rest.length :=
            (List.dropWhile_sublist _).length_le
          exact ih (rest.dropWhile (· = 0x20)) (by simp at hl; omega)
            (wfb_dropWhile_sp h3)
        · rw [collapse_cons_ne hsp, wfb_cons_bmp h1 h2]
          exact ih rest (by simp at hl; omega) h3
      · have hu : ¬u = 0x20 := by simp [isHigh] at hh; omega
        have hl2 : ¬l = 0x20 := by simp [isLow] at hlo; omega
        rw [collapse_cons_ne hu, collapse_cons_ne hl2, wfb_cons_pair hh hlo]
        exact ih rest' (by simp at hl; omega) h3
  intro w
  exact key w.length w le_rfl

theorem wfb_dropUntilGt : ∀ {w rest' : List Nat}, wfb w = true →
    dropUntilGt w = some rest' → wfb rest' = true := by
  have key : ∀ n (w rest' : List Nat), w.length ≤ n → wfb w = true →
      dropUntilGt w = some rest' → wfb rest' = true := by
    intro n
    induction n with
    | zero =>
      intro w rest' hl _ hd
      have hn : w = [] := List.eq_nil_of_length_eq_zero (Nat.le_zero.mp hl)
      subst hn
      simp [dropUntilGt] at hd
    | succ n ih =>
      intro w rest' hl hw hd
      rcases w with _ | ⟨u, t⟩
      · simp [dropUntilGt] at hd
      by_cases hgt : u = 0x3E
      · rw [dropUntilGt, if_pos hgt] at hd
        injection hd with hd
        subst hd
        subst hgt
        rwa [wfb_cons_bmp (by decide) (by decide)] at hw
      · rw [dropUntilGt, if_neg hgt] at hd
        rcases wfb_cases hw with ⟨h1, h2, h3⟩ | ⟨l, t', rfl, hh, hlo, h3⟩
        · exact ih t rest' (by simp at hl; omega) h3 hd
        · have hlgt : ¬l = 0x3E := by simp [isLow] at hlo; omega
          rw [dropUntilGt, if_neg hlgt] at hd
          exact ih t' rest' (by simp at hl; omega) h3 hd
  intro w rest' hw hd
  exact key w.length w rest' le_rfl hw hd

theorem wfb_stripTags : ∀ {w : List Nat}, wfb w = true →
    wfb (stripTags w) = true := by
  have key : ∀ n (w : List Nat), w.length ≤ n → wfb w = true →
      wfb (stripTags w) = true := by
    intro n
    induction n with
    | zero =>
      intro w hl _
      have hn : w = [] := List.eq_nil_of_length_eq_zero (Nat.le_zero.mp hl)
      subst hn
      simp only [stripTags]
      rfl
    | succ n ih =>
      intro w hl hw
      rcases w with _ | ⟨u, rest⟩
      · simp only [stripTags]
        rfl
      by_cases hlt : u = 0x3C
      · subst hlt
        cases hd : dropUntilGt rest with
        | some rest' =>
          rw [stripTags_cons_some hd]
          have hwr : wfb rest = true := by
            rwa [wfb_cons_bmp (by decide) (by decide)] at hw
          have hlen := dropUntilGt_length rest rest' hd
          exact ih rest' (by simp at hl; omega) (wfb_dropUntilGt hwr hd)
        | none =>
          rw [stripTags_cons_none hd]
          exact hw
      · rcases wfb_cases hw with ⟨h1, h2, h3⟩ | ⟨l, rest', rfl, hh, hlo, h3⟩
        · rw [stripTags_cons_ne hlt, wfb_cons_bmp h1 h2]
          exact ih rest (by simp at hl; omega) h3
        · have hllt : ¬l = 0x3C := by simp [isLow] at hlo; omega
          rw [stripTags_cons_ne hlt, stripTags_cons_ne hllt, wfb_cons_pair hh hlo]
          exact ih rest' (by simp at hl; omega) h3
  intro w
  exact key w.length w le_rfl

theorem lowerU_lt {u : Nat} (h : lowerU u < 0xD800) : u < 0xD800 := by
  unfold lowerU at h
  split at h <;> omega

theorem wfb_drop_ciPref : ∀ {pats w : List Nat},
    (∀ p ∈ pats, p < 0xD800) → ciPref pats w = true → wfb w = true →
    wfb (w.drop pats.length) = true := by
  intro pats
  induction pats with
  | nil =>
    intro w _ _ hw
    simpa using hw
  | cons p ps ih =>
    intro w hp hc hw
    rcases w with _ | ⟨c, cs⟩
    · simp [ciPref] at hc
    · rw [ciPref] at hc
      simp only [Bool.and_eq_true, decide_eq_true_eq] at hc
      have hlc : lowerU c < 0xD800 := by
        rw [← hc.1]
        exact hp p (by simp)
      have hcd : c < 0xD800 := lowerU_lt hlc
      have hwc : wfb cs = true := by
        rwa [wfb_cons_bmp (by simp [isHigh]; omega) (by simp [isLow]; omega)] at hw
      rw [List.length_cons, List.drop_succ_cons]
      exact ih (fun q hq => hp q (by simp [hq])) hc.2 hwc

theorem wfb_replaceCI {p : Nat} {ps rep : List Nat} (hp : p < 0xD800)
    (hps : ∀ x ∈ ps, x < 0xD800) (hrep : wfb rep = true) :
    ∀ {w : List Nat}, wfb w = true → wfb (replaceCI p ps rep w) = true := by
  have hpats : ∀ x ∈ p :: ps, x < 0xD800 := by
    intro x hx
    rcases List.mem_cons.mp hx with h | h
    · subst h; exact hp
    · exact hps x h
  have key : ∀ n (w : List Nat), w.length ≤ n → wfb w = true →
      wfb (replaceCI p ps rep w) = true := by
    intro n
    induction n with
    | zero =>
      intro w hl _
      have hn : w = [] := List.eq_nil_of_length_eq_zero (Nat.le_zero.mp hl)
      subst hn
      simp only [replaceCI]
      rfl
    | succ n ih =>
      intro w hl hw
      rcases w with _ | ⟨u, rest⟩
      · simp only [replaceCI]
        rfl
      by_cases hci : ciPref (p :: ps) (u :: rest) = true
      · rw [replaceCI, if_pos hci]
        refine wfb_append hrep ?_
        have hdrop : wfb ((u :: rest).drop (ps.length + 1)) = true := by
          have hd := wfb_drop_ciPref hpats hci hw
          simpa using hd
        refine ih _ ?_ hdrop
        simp only [List.length_drop, List.length_cons] at *
        omega
      · rw [replaceCI, if_neg hci]
        rcases wfb_cases hw with ⟨h1, h2, h3⟩ | ⟨l, rest', rfl, hh, hlo, h3⟩
        · rw [wfb_cons_bmp h1 h2]
          exact ih rest (by simp at hl; omega) h3
        · have hci2 : ¬ciPref (p :: ps) (l :: rest') = true := by
            rw [ciPref]
            simp only [Bool.and_eq_true, decide_eq_true_eq]
            intro hcon
            have hlge : 0xDC00 ≤ l := by simp [isLow] at hlo; omega
            have hpl : p < 0xD800 := hp
            rw [hcon.1] at hpl
            unfold lowerU at hpl
            split at hpl <;> omega
          rw [replaceCI, if_neg hci2, wfb_cons_pair hh hlo]
          exact ih rest' (by simp at hl; omega) h3
  intro w
  exact key w.length w le_rfl

theorem wfb_decodeEntities {w : List Nat} (h : wfb w = true) :
    wfb (decodeEntities w) = true := by
  unfold decodeEntities
  refine wfb_replaceCI (by decide) (by decide) (by decide) ?_
  refine wfb_replaceCI (by decide) (by decide) (by decide) ?_
  refine wfb_replaceCI (by decide) (by decide) (by decide) ?_
  refine wfb_replaceCI (by decide) (by decide) (by decide) ?_
  refine wfb_replaceCI (by decide) (by decide) (by decide) ?_
  refine wfb_replaceCI (by decide) (by decide) (by decide) ?_
  exact wfb_stripTags h

/-- C4 (counterexample): on an input the error-handling section declares
    valid — a lone high surrogate — `clean` with default options returns the
    surrogate unchanged, so the output is not well-formed UTF-16. -/
theorem clean_wellformed_cex : wfb (clean {} [0xD800]) = false := by
  have e : clean {} [0xD800] = [0xD800] := by
    simp [clean, supp, nfc, reorder, decompose, nfcDecomp, ccc, sortCC, insCC,
      comp, composePair, trail, trailGo, collapse, strippable, getCharInfo,
      INVISIBLE_CHARS, List.find?, controlRange, isSpTab, suppLow]
  rw [e]
  decide

/-- C4 (amended): for every *well-formed* input (every high surrogate
    immediately followed by a low one and every low immediately preceded by
    a high one) and every options value, the output of `clean` is again
    well-formed UTF-16: each pass — tag stripping, entity decoding,
    invisible-character filtering, supplementary-pair removal, NFC, homoglyph
    folding, trailing-space removal, space collapsing — preserves
    well-formedness.  (On ill-formed input the claim fails: lone surrogates
    pass through every step.) -/
theorem clean_preserves_wellformed (opts : CleanOptions) (text : List Nat)
    (h : wfb text = true) : wfb (clean opts text) = true := by
  simp only [clean]
  have h2 : wfb (supp ((if opts.stripHTML then decodeEntities text
      else text).filter (fun u => !strippable u))) = true := by
    refine wfb_supp (wfb_filter (fun u hu => ?_) ?_)
    · rw [strippable_surr' hu]
      rfl
    · split
      · exact wfb_decodeEntities h
      · exact h
  refine wfb_collapse (wfb_trail ?_)
  split
  · refine wfb_map_hgFix _ ?_
    split
    · exact wfb_nfc h2
    · exact h2
  · split
    · exact wfb_nfc h2
    · exact h2

/-- C4 (witness): the amended preservation applied to a concrete
    well-formed input containing a surrogate pair. -/
theorem clean_preserves_wellformed_witness :
    wfb [0x61, 0xD83D, 0xDE00] = true ∧
    wfb (clean {} [0x61, 0xD83D, 0xDE00]) = true :=
  ⟨by decide, clean_preserves_wellformed {} [0x61, 0xD83D, 0xDE00] (by decide)⟩
